import Mathlib

/-
Verification of the day-16 pressure-release engine: valve-id codec, dense
tables, Floyd–Warshall refinement, and the recursive single-agent and
two-agent partition searches, embedded from src/puzzles/day_16.rs.
u64 arithmetic is modelled as Nat with explicit wrapping (mod 2^64);
fallible operations (array indexing, Option::unwrap) return Option.
-/

set_option maxRecDepth 100000

namespace Day16

/-- Size of the dense valve tables: 1 <<< 10 = 1024. -/
def VALVE_BUF_SIZE : Nat := 1 <<< 10

/-- The u64 sentinel used for unset rates and unreachable distances. -/
def U64_MAX : Nat := 2 ^ 64 - 1

/-- Modulus of u64 arithmetic. -/
def W64 : Nat := 2 ^ 64

/-- Wrapping u64 addition. -/
def add64 (a b : Nat) : Nat := (a + b) % W64

/-- Wrapping u64 multiplication. -/
def mul64 (a b : Nat) : Nat := (a * b) % W64

/-- Wrapping u64 subtraction (meaningful for operands below 2^64). -/
def sub64 (a b : Nat) : Nat := (a + W64 - b) % W64

/-- CHAR_BASE is the code point of the letter A, as u16. -/
def CHAR_BASE : Nat := 65

/-- Valve::from: subtract CHAR_BASE from each character (u16 wrapping, with
    the character code truncated to u16 first as in a Rust `as u16` cast),
    mask to 5 bits, and pack the two letters into a 10-bit valve id. -/
def valveFrom (ca cb : Nat) : Nat :=
  let a := (ca % 2 ^ 16 + 2 ^ 16 - CHAR_BASE) % 2 ^ 16
  let b := (cb % 2 ^ 16 + 2 ^ 16 - CHAR_BASE) % 2 ^ 16
  ((a &&& 0x1F) <<< 5) ||| (b &&& 0x1F)

/-- FlowRates.get: index into the dense rate table; none models the
    out-of-bounds panic. -/
def flowRatesGet (table : List Nat) (vid : Nat) : Option Nat := table.get? vid

/-- Distances.get on the dense 2-D distance table; none models the
    out-of-bounds panic. -/
def distancesGet (table : List (List Nat)) (a b : Nat) : Option Nat :=
  (table.get? a).bind fun row => row.get? b

/-- Time budget of the single-agent search. -/
def TIME_LIMIT : Nat := 30

/-- Time budget of the two-agent search. -/
def TIME_LIMIT_WITH_ELEPHANT : Nat := 26

/-- The volcano info: the flow-rate table and the refined distance table,
    modelled as total functions on valve ids holding u64 entries
    (U64_MAX as the unset / unreachable sentinel). -/
structure VolcanoInfo where
  flow_rate : Nat → Nat
  distance : Nat → Nat → Nat

/-- Reinterpreting u64 → i64 cast (Rust `as i64`). -/
def u64ToI64 (n : Nat) : Int :=
  if n % W64 < 2 ^ 63 then (n % W64 : Int) else (n % W64 : Int) - (W64 : Int)

/-- Wrapping i64 subtraction. -/
def subI64 (a b : Int) : Int := (a - b + 2 ^ 63) % (W64 : Int) - 2 ^ 63

/-- valve_heuristic: flow_rate(target) as i64 minus distance(from, target)
    as i64, in i64 arithmetic. -/
def valve_heuristic (info : VolcanoInfo) (target src : Nat) : Int :=
  subI64 (u64ToI64 (info.flow_rate target)) (u64ToI64 (info.distance src target))

/-- HashMap::insert on the open-valves map modelled as an association list:
    overwrite the entry when the key is present, append otherwise. -/
def hmInsert (m : List (Nat × Bool)) (k : Nat) (v : Bool) : List (Nat × Bool) :=
  if m.any (fun p => p.1 == k) then m.map (fun p => if p.1 = k then (k, v) else p)
  else m ++ [(k, v)]

/-- Number of unopened valves in the map. -/
def countFalse (m : List (Nat × Bool)) : Nat := m.countP (fun p => !p.2)

/-- Candidate ordering of the search: the unopened valves sorted with the
    comparator ha.cmp(&hb), i.e. a stable sort that is ascending in the
    heuristic. -/
def sortCands (info : VolcanoInfo) (valve : Nat) (cands : List Nat) : List Nat :=
  List.insertionSort (fun a b => valve_heuristic info a valve ≤ valve_heuristic info b valve) cands

/-- find_max_pressure_release_rec. The fuel argument makes the recursion
    structural (each recursive call of the source strictly decreases the
    number of unopened valves, so the call sites always supply enough fuel);
    none models a panic: the final .max().unwrap() of an empty result list,
    or fuel exhaustion, which never occurs at the call sites. -/
def fmpr_rec (info : VolcanoInfo) :
    Nat → List (Nat × Bool) → Nat → Nat → Nat → Nat → Nat → Option Nat
  | 0, _, _, _, _, _, _ => none
  | Nat.succ fuel, open_valves, valve, time, flow_rate, flow_volume, time_limit =>
    let time1 := if valve = 0 then time else add64 time 1
    let fv1 := if valve = 0 then flow_volume else add64 flow_volume flow_rate
    let fr1 := if valve = 0 then flow_rate else add64 flow_rate (info.flow_rate valve)
    let ov1 := if valve = 0 then open_valves else hmInsert open_valves valve true
    if valve ≠ 0 ∧ time1 = time_limit then some fv1
    else if ov1.all (fun p => p.2) then
      some (add64 fv1 (mul64 (add64 (sub64 time_limit time1) 1) fr1))
    else
      ((sortCands info valve ((ov1.filter (fun p => !p.2)).map (fun p => p.1))).mapM
        (fun vid =>
          let dist := info.distance valve vid
          let t := add64 time1 dist
          if time_limit ≤ t then
            some (add64 fv1 (mul64 fr1 (add64 (sub64 time_limit time1) 1)))
          else
            fmpr_rec info fuel ov1 vid t fr1 (add64 fv1 (mul64 fr1 dist))
              time_limit)).bind
        (fun results => results.max?)

/-- The interesting valves: rate-table indices holding a rate that is neither
    0 nor the unset sentinel, in index order (the source collects exactly
    these and sorts them ascending where order matters). -/
def interesting_valves (info : VolcanoInfo) : List Nat :=
  (List.range VALVE_BUF_SIZE).filter
    (fun v => !(info.flow_rate v == 0) && !(info.flow_rate v == U64_MAX))

/-- Open-valves map for a valve set: every set member unopened, then the
    start valve 0 inserted as open. -/
def initialValves (vs : List Nat) : List (Nat × Bool) :=
  hmInsert (vs.map (fun v => (v, false))) 0 true

/-- Fuel sufficient for the search from a given map (one valve is opened per
    recursion level). -/
def searchFuel (m : List (Nat × Bool)) : Nat := countFalse m + 3

/-- find_max_pressure_release: the part-1 single-agent search. -/
def find_max_pressure_release (info : VolcanoInfo) : Option Nat :=
  let ov := initialValves (interesting_valves info)
  fmpr_rec info (searchFuel ov) ov 0 1 0 0 TIME_LIMIT

/-- get_max_pressure_release_from_valve_set: one agent of the part-2 search,
    restricted to the given valve set, with the shorter time budget. -/
def get_max_pressure_release_from_valve_set (info : VolcanoInfo)
    (valve_set : List Nat) : Option Nat :=
  let ov := initialValves valve_set
  fmpr_rec info (searchFuel ov) ov 0 1 0 0 TIME_LIMIT_WITH_ELEPHANT

/-- count_valves: the number of interesting valves. -/
def count_valves (info : VolcanoInfo) : Nat := (interesting_valves info).length

/-- generate_valve_partitions: all subset/complement splits of the interesting
    valves, one entry per subset size from 0 to n, with the two degenerate
    splits produced directly. -/
def generate_valve_partitions (info : VolcanoInfo) : List (List Nat × List Nat) :=
  let valves := interesting_valves info
  let n := valves.length
  (List.range (n + 1)).flatMap (fun k =>
    if k = 0 then [([], valves)]
    else if k = n then [(valves, [])]
    else (List.sublistsLen k valves).map
      (fun a => (a, valves.filter (fun v => !a.contains v))))

/-- The partitions surviving the quarter-size cutoff filter of
    find_max_pressure_release_with_elephant. -/
def valve_sets_filtered (info : VolcanoInfo) : List (List Nat × List Nat) :=
  (generate_valve_partitions info).filter
    (fun p => count_valves info / 4 ≤ p.1.length && count_valves info / 4 ≤ p.2.length)

/-- find_max_pressure_release_with_elephant: the part-2 two-agent search.
    Runs the single-agent search once per side of every surviving split and
    tracks the running maximum of the summed results, starting from 0. -/
def find_max_pressure_release_with_elephant (info : VolcanoInfo) : Option Nat :=
  (valve_sets_filtered info).foldlM (fun acc p => do
    let h ← get_max_pressure_release_from_valve_set info p.1
    let e ← get_max_pressure_release_from_valve_set info p.2
    pure (max acc (add64 h e))) 0

/-- Modelled from the spec (§4.6, §6): the two-agent output as stated there,
    the maximum over the surviving splits of the (u64) sum of the two
    independent single-agent results under the shorter budget. -/
def two_agent_spec (info : VolcanoInfo) : Nat :=
  ((valve_sets_filtered info).map (fun p =>
    add64 ((get_max_pressure_release_from_valve_set info p.1).getD 0)
      ((get_max_pressure_release_from_valve_set info p.2).getD 0))).foldl max 0

/-- Dense distance matrix as a total function on index pairs. -/
abbrev Mat : Type := Nat → Nat → Nat

/-- Distances.set: functional update of one matrix entry. -/
def mset (D : Mat) (a b v : Nat) : Mat := fun i j => if i = a ∧ j = b then v else D i j

/-- One iteration of the innermost j-loop of floyd_warshall: the continue on
    an unreachable distance(k, j), the u64 sum of the two legs with the
    snapshot dik, and the in-place update when the sum improves. -/
def fwRowStep (k i dik : Nat) (E : Mat) (j : Nat) : Mat :=
  if E k j = U64_MAX then E
  else if add64 dik (E k j) < E i j then mset E i j (add64 dik (E k j)) else E

/-- The innermost j-loop of floyd_warshall for fixed i and k, carrying the
    snapshot dik read before the loop. -/
def fwRow (k i dik : Nat) (D : Mat) : Mat :=
  (List.range VALVE_BUF_SIZE).foldl (fwRowStep k i dik) D

/-- One source row i at intermediate k: read distance(i, k) once and skip the
    whole row when it is the unreachable sentinel. -/
def fwMid (k : Nat) (D : Mat) (i : Nat) : Mat :=
  if D i k = U64_MAX then D else fwRow k i (D i k) D

/-- The middle i-loop of floyd_warshall for a fixed intermediate k. -/
def fwOuter (D : Mat) (k : Nat) : Mat := (List.range VALVE_BUF_SIZE).foldl (fwMid k) D

/-- floyd_warshall: triple relaxation loop over the whole index space. -/
def floyd_warshall (D : Mat) : Mat := (List.range VALVE_BUF_SIZE).foldl fwOuter D

/-- Weight of the walk from i through the intermediate vertices l to j in the
    weighted graph whose edges are the non-sentinel entries of D; none when
    some step is not an edge. A walk always has at least one edge. -/
def walkWeight (D : Mat) (i : Nat) : List Nat → Nat → Option Nat
  | [], j => if D i j = U64_MAX then none else some (D i j)
  | v :: l, j => if D i v = U64_MAX then none else (walkWeight D v l j).map (fun w => D i v + w)

/-- Some walk joins i to j in the graph of D. -/
def ReachableW (D : Mat) (i j : Nat) : Prop := ∃ l w, walkWeight D i l j = some w

/-- Some walk whose intermediate vertices are all below k joins i to j. -/
def ReachableBelow (D : Mat) (k i j : Nat) : Prop :=
  ∃ l w, (∀ v ∈ l, v < k) ∧ walkWeight D i l j = some w

/-- The Floyd–Warshall loop invariant: after the intermediates below k have
    been processed, every entry is the minimum weight of a walk through
    intermediates below k when one exists, and the sentinel otherwise. -/
def FwInv (D0 : Mat) (k : Nat) (D : Mat) : Prop :=
  ∀ i j,
    (ReachableBelow D0 k i j →
      (∃ l, (∀ v ∈ l, v < k) ∧ walkWeight D0 i l j = some (D i j)) ∧
      (∀ l w, (∀ v ∈ l, v < k) → walkWeight D0 i l j = some w → D i j ≤ w)) ∧
    (¬ ReachableBelow D0 k i j → D i j = U64_MAX)

/-- Concrete instance: one positive-rate valve with id 5 and rate 7, used to
    exercise the terminal branches of the search. -/
def exInfoTL : VolcanoInfo := ⟨fun v => if v = 5 then 7 else 0, fun _ _ => 1⟩

/-- Concrete instance: exactly one interesting valve, id 1, rate 1, at
    compressed distance 1 from the start valve. -/
def exInfoOne : VolcanoInfo :=
  ⟨fun v => if v = 1 then 1 else 0,
   fun a b => if a = 0 ∧ b = 1 then 1 else if a = b then 0 else U64_MAX⟩

/-- Concrete instance: exactly one interesting valve, id 1, rate 5, that is
    unreachable from the start valve (sentinel distance). -/
def exInfoUnreachable : VolcanoInfo :=
  ⟨fun v => if v = 1 then 5 else 0, fun a b => if a = b then 0 else U64_MAX⟩

/-- Concrete instance: two interesting valves with distinct heuristic scores
    (valve 1 scores 0, valve 2 scores 8 from the start valve). -/
def exInfoHeur : VolcanoInfo :=
  ⟨fun v => if v = 2 then 9 else if v = 1 then 1 else 0, fun _ _ => 1⟩

/-- Concrete instance: five interesting valves 1..5, all of rate 1. -/
def exInfoFive : VolcanoInfo :=
  ⟨fun v => if 1 ≤ v ∧ v ≤ 5 then 1 else 0, fun _ _ => 1⟩

/-- Concrete instance: a volcano with no interesting valve at all. -/
def exInfoEmpty : VolcanoInfo := ⟨fun _ => 0, fun _ _ => 1⟩

/-- Bounds on a search state under which none of the u64 operations of the
    search can wrap: small time budget, rates and pairwise distances of the
    map keys bounded, the current valve a key, and the rate and volume
    potentials bounded. -/
def SearchBounds (info : VolcanoInfo) (ov : List (Nat × Bool))
    (valve time fr fv tl : Nat) : Prop :=
  tl ≤ 2 ^ 16 ∧
  (∀ k ∈ ov.map (fun p => p.1), info.flow_rate k ≤ 2 ^ 16) ∧
  (∀ a ∈ ov.map (fun p => p.1), ∀ b ∈ ov.map (fun p => p.1),
    info.distance a b ≤ 2 ^ 16) ∧
  valve ∈ ov.map (fun p => p.1) ∧
  fr + 2 ^ 16 * countFalse ov ≤ 2 ^ 32 ∧
  fv + (fr + 2 ^ 16 * countFalse ov) * (tl + 2 - time) ≤ 2 ^ 63

theorem valveFrom_lt (ca cb : Nat) : valveFrom ca cb < VALVE_BUF_SIZE := by
  have h32 : (2 : Nat) ^ 5 = 32 := by norm_num
  have ha : ((ca % 2 ^ 16 + 2 ^ 16 - CHAR_BASE) % 2 ^ 16) &&& 0x1F < 32 :=
    lt_of_le_of_lt (Nat.and_le_right) (by norm_num)
  have hb : ((cb % 2 ^ 16 + 2 ^ 16 - CHAR_BASE) % 2 ^ 16) &&& 0x1F < 32 :=
    lt_of_le_of_lt (Nat.and_le_right) (by norm_num)
  have hsh : (((ca % 2 ^ 16 + 2 ^ 16 - CHAR_BASE) % 2 ^ 16) &&& 0x1F) <<< 5 < 2 ^ 10 := by
    rw [Nat.shiftLeft_eq]
    calc (((ca % 2 ^ 16 + 2 ^ 16 - CHAR_BASE) % 2 ^ 16) &&& 0x1F) * 2 ^ 5
        ≤ 31 * 2 ^ 5 := Nat.mul_le_mul_right _ (Nat.lt_succ_iff.mp ha)
      _ < 2 ^ 10 := by norm_num
  have hb10 : ((cb % 2 ^ 16 + 2 ^ 16 - CHAR_BASE) % 2 ^ 16) &&& 0x1F < 2 ^ 10 :=
    lt_of_lt_of_le hb (by norm_num)
  have : valveFrom ca cb < 2 ^ 10 := Nat.or_lt_two_pow hsh hb10
  simpa [VALVE_BUF_SIZE, Nat.shiftLeft_eq] using this

theorem get?_isSome_of_lt {α : Type} (l : List α) (n : Nat) (h : n < l.length) :
    (l.get? n).isSome := by
  rw [List.get?_eq_get h]; rfl

/-- C9: every 2-character label is encoded by Valve::from to a key strictly
below VALVE_BUF_SIZE = 1024, so indexing the dense flow-rate table and the
dense distance table with codec-produced keys is always in bounds and never
panics. -/
theorem C9_codec_keys_in_bounds (ca cb ca2 cb2 : Nat) (fr : List Nat)
    (ds : List (List Nat)) (hfr : fr.length = VALVE_BUF_SIZE)
    (hds : ds.length = VALVE_BUF_SIZE)
    (hrow : ∀ row ∈ ds, row.length = VALVE_BUF_SIZE) :
    valveFrom ca cb < VALVE_BUF_SIZE ∧
    (flowRatesGet fr (valveFrom ca cb)).isSome ∧
    (distancesGet ds (valveFrom ca cb) (valveFrom ca2 cb2)).isSome := by
  refine ⟨valveFrom_lt ca cb, ?_, ?_⟩
  · exact get?_isSome_of_lt _ _ (hfr ▸ valveFrom_lt ca cb)
  · have h1 : valveFrom ca cb < ds.length := hds ▸ valveFrom_lt ca cb
    obtain ⟨row, hrow_eq⟩ := Option.isSome_iff_exists.mp (get?_isSome_of_lt ds _ h1)
    have hmem : row ∈ ds := List.get?_mem hrow_eq
    have h2 : valveFrom ca2 cb2 < row.length := (hrow row hmem) ▸ valveFrom_lt ca2 cb2
    simp only [distancesGet, hrow_eq, Option.bind_some]
    exact get?_isSome_of_lt _ _ h2

/-- Witness for C9 at the concrete label pair AA, AC on all-zero tables. -/
theorem C9_codec_keys_in_bounds_witness :
    valveFrom 65 65 < VALVE_BUF_SIZE ∧
    (flowRatesGet (List.replicate 1024 0) (valveFrom 65 65)).isSome ∧
    (distancesGet (List.replicate 1024 (List.replicate 1024 0)) (valveFrom 65 65)
      (valveFrom 65 67)).isSome := by
  refine C9_codec_keys_in_bounds 65 65 65 67 _ _ ?_ ?_ ?_
  · simp [VALVE_BUF_SIZE]
  · simp [VALVE_BUF_SIZE]
  · intro row hrow
    rw [List.eq_of_mem_replicate hrow]
    simp [VALVE_BUF_SIZE]

theorem add64_eq_of_lt {a b : Nat} (h : a + b < W64) : add64 a b = a + b := Nat.mod_eq_of_lt h

theorem mul64_eq_of_lt {a b : Nat} (h : a * b < W64) : mul64 a b = a * b := Nat.mod_eq_of_lt h

theorem sub64_eq_of_le {a b : Nat} (hba : b ≤ a) (ha : a < W64) : sub64 a b = a - b := by
  have h1 : a + W64 - b = (a - b) + W64 := by omega
  rw [sub64, h1, Nat.add_mod_right]
  exact Nat.mod_eq_of_lt (by omega)

/-- C1 counterexample: with valve 5 (rate 7) activated at exactly the time
limit (time 1 → 2 = limit), the search returns the bare accumulated value 0,
not the extrapolated value (fv + fr) + (tl - time + 1) * rate = 7 that the
claim predicts for this terminal case. -/
theorem C1_cex :
    fmpr_rec exInfoTL 5 [(0, true), (5, false)] 5 1 0 0 2 = some 0 ∧
    (0 : Nat) ≠ (0 + 0) + (2 - 2 + 1) * (0 + 7) := by decide

/-- C1 amended: after a non-start valve is activated, the two terminal cases
differ. When the elapsed time hits the limit exactly, the accumulated value
is returned with no extrapolation; only when all valves are open is the
extrapolation remaining_time * current_rate with remaining = tl - elapsed + 1
added. -/
theorem C1_terminal_behavior (info : VolcanoInfo) (fuel : Nat)
    (ov : List (Nat × Bool)) (valve time fr fv tl : Nat) (hvalve : valve ≠ 0)
    (htime : time + 1 ≤ tl) (htl : tl < W64) (hfv : fv + fr < W64)
    (hfr : fr + info.flow_rate valve < W64)
    (hvol : fv + fr + (tl - time) * (fr + info.flow_rate valve) < W64) :
    (time + 1 = tl → fmpr_rec info (fuel + 1) ov valve time fr fv tl = some (fv + fr)) ∧
    (time + 1 < tl → ((hmInsert ov valve true).all (fun p => p.2)) = true →
      fmpr_rec info (fuel + 1) ov valve time fr fv tl =
        some ((fv + fr) + (tl - (time + 1) + 1) * (fr + info.flow_rate valve))) := by
  have htime1 : add64 time 1 = time + 1 := add64_eq_of_lt (by omega)
  have hfv1 : add64 fv fr = fv + fr := add64_eq_of_lt (by omega)
  have hfr1 : add64 fr (info.flow_rate valve) = fr + info.flow_rate valve :=
    add64_eq_of_lt (by omega)
  constructor
  · intro h
    simp only [fmpr_rec]
    simp [hvalve, htime1, h, hfv1]
  · intro h hall
    have hne : ¬ (time + 1 = tl) := by omega
    have hsub : sub64 tl (time + 1) = tl - (time + 1) := sub64_eq_of_le (by omega) htl
    have hdt : add64 (tl - (time + 1)) 1 = tl - time := by
      rw [add64_eq_of_lt (by omega)]; omega
    have hmul : mul64 (tl - time) (fr + info.flow_rate valve) =
        (tl - time) * (fr + info.flow_rate valve) := mul64_eq_of_lt (by omega)
    have hfin : add64 (fv + fr) ((tl - time) * (fr + info.flow_rate valve)) =
        (fv + fr) + (tl - time) * (fr + info.flow_rate valve) := add64_eq_of_lt (by omega)
    have hgoal : tl - (time + 1) + 1 = tl - time := by omega
    simp only [fmpr_rec]
    simp [hvalve, htime1, hne, hfv1, hfr1, hall, hsub, hdt, hmul, hfin, hgoal]

/-- C6: the unreachable-distance sentinel is not excluded from candidate
consideration by the search. With one interesting valve of rate 5 whose
distance from the start is the sentinel, time + distance wraps around u64
(in a release build; a debug build panics on the overflow), the unreachable
valve is visited at no time cost, and its rate is counted for the full
30-minute budget, yielding 150 instead of treating the valve as unvisitable. -/
theorem C6_unreachable_valve_contributes :
    exInfoUnreachable.distance 0 1 = U64_MAX ∧
    interesting_valves exInfoUnreachable = [1] ∧
    exInfoUnreachable.flow_rate 1 = 5 ∧
    find_max_pressure_release exInfoUnreachable = some (30 * 5) := by decide

/-- C7 counterexample: from the start valve, valve 1 scores 0 and valve 2
scores 8 on the heuristic, yet the search's candidate ordering puts valve 1
first: candidates are explored in ascending heuristic order, not with the
most promising first as the claim states. -/
theorem C7_cex :
    sortCands exInfoHeur 0 [2, 1] = [1, 2] ∧
    valve_heuristic exInfoHeur 1 0 < valve_heuristic exInfoHeur 2 0 := by decide

/-- C7 amended: at every recursion step the candidate valves are explored in
ascending order of the heuristic score rate(candidate) - distance(current,
candidate): the LEAST promising candidate comes first. The order is a
permutation of the unopened candidates, sorted by the heuristic. -/
theorem C7_candidate_order (info : VolcanoInfo) (valve : Nat) (cands : List Nat) :
    (sortCands info valve cands).Sorted
      (fun a b => valve_heuristic info a valve ≤ valve_heuristic info b valve) ∧
    (sortCands info valve cands).Perm cands := by
  constructor
  · haveI : IsTotal Nat (fun a b => valve_heuristic info a valve ≤ valve_heuristic info b valve) :=
      ⟨fun a b => le_total _ _⟩
    haveI : IsTrans Nat (fun a b => valve_heuristic info a valve ≤ valve_heuristic info b valve) :=
      ⟨fun a b c hab hbc => le_trans hab hbc⟩
    exact List.sorted_insertionSort _ cands
  · exact List.perm_insertionSort _ cands

/-- C5 counterexample: with five interesting valves the cutoff is 5 / 4 = 1,
so the split ([1], [2,3,4,5]) survives the filter and is evaluated although
its first side holds fewer than one quarter of the five valves
(4 * 1 < 5). -/
theorem C5_cex :
    ([1], [2, 3, 4, 5]) ∈ valve_sets_filtered exInfoFive ∧
    4 * ([1] : List Nat).length < count_valves exInfoFive := by decide

/-- C5 amended: the two-agent filter discards exactly the splits in which
either side has fewer than ⌊n/4⌋ valves (integer division), not the splits
below an exact quarter: a split survives iff it is generated and both sides
have at least count_valves / 4 elements. -/
theorem C5_quarter_filter (info : VolcanoInfo) (A B : List Nat) :
    (A, B) ∈ valve_sets_filtered info ↔
      ((A, B) ∈ generate_valve_partitions info ∧
        count_valves info / 4 ≤ A.length ∧ count_valves info / 4 ≤ B.length) := by
  simp [valve_sets_filtered, List.mem_filter, and_assoc]

/-- Witness for C1 at a concrete state: valve 5 of rate 7 activated at time
2 under limit 3 with every other valve open, giving the extrapolated value. -/
theorem C1_terminal_behavior_witness :
    fmpr_rec exInfoTL (0 + 1) [(0, true), (5, false)] 5 1 0 0 3 =
      some ((0 + 0) + (3 - (1 + 1) + 1) * (0 + 7)) :=
  (C1_terminal_behavior exInfoTL 0 [(0, true), (5, false)] 5 1 0 0 3 (by decide)
    (by decide) (by decide) (by decide) (by decide) (by decide)).2 (by decide) (by decide)

/-- C2 counterexample: one interesting valve of rate R = 1 at compressed
distance d = 1, budget T = 4 > d + 1: the search returns 2, not the
R * (T - d) = 3 the claim predicts. -/
theorem C2_cex :
    fmpr_rec exInfoOne 4 (initialValves (interesting_valves exInfoOne)) 0 1 0 0 4 = some 2 ∧
    (2 : Nat) ≠ 1 * (4 - 1) := by decide

/-- C2 amended: with exactly one interesting valve of rate R at compressed
distance d from the start and budget T > d + 1, the single-agent search
returns (T - d - 1) * R when T > d + 2, and 0 when T = d + 2 exactly (the
time-limit terminal case returns the accumulated value unextrapolated). -/
theorem C2_one_valve_value (info : VolcanoInfo) (v R d T fuel : Nat)
    (hint : interesting_valves info = [v]) (hv : v ≠ 0)
    (hR : info.flow_rate v = R) (hd : info.distance 0 v = d)
    (hRb : R ≤ 2 ^ 16) (hdb : d ≤ 2 ^ 16) (hTb : T ≤ 2 ^ 16) (hT : d + 1 < T) :
    (T = d + 2 →
      fmpr_rec info (fuel + 2) (initialValves (interesting_valves info)) 0 1 0 0 T = some 0) ∧
    (d + 2 < T →
      fmpr_rec info (fuel + 2) (initialValves (interesting_valves info)) 0 1 0 0 T =
        some ((T - d - 1) * R)) := by
  have hW : (2 : Nat) ^ 16 < W64 := by norm_num [W64]
  have hov : initialValves (interesting_valves info) = [(v, false), (0, true)] := by
    rw [hint]; simp [initialValves, hmInsert, hv, Ne.symm hv]
  have ht : add64 1 d = 1 + d := add64_eq_of_lt (by omega)
  have hnot : ¬ (T ≤ 1 + d) := by omega
  have hm0 : mul64 0 d = 0 := by simp [mul64]
  have ha0 : add64 0 0 = 0 := by simp [add64]
  have htime2 : add64 (1 + d) 1 = d + 2 := by rw [add64_eq_of_lt (by omega)]; omega
  have hfr2 : add64 0 R = R := by rw [add64_eq_of_lt (by omega)]; omega
  have hins : hmInsert [(v, false), (0, true)] v true = [(v, true), (0, true)] := by
    simp [hmInsert, hv, Ne.symm hv]
  constructor
  · intro hTeq
    subst hTeq
    have hnot1 : ¬ (d + 2 ≤ 1 + d) := by omega
    rw [hov]
    simp only [fmpr_rec]
    simp [sortCands, List.insertionSort, List.orderedInsert, List.mapM.loop, hd, ht,
      hnot1, hm0, ha0, hv, htime2, hfr2, hR, hins, List.max?]
  · intro hTgt
    have hne : ¬ (d + 2 = T) := by omega
    have hsub : sub64 T (d + 2) = T - (d + 2) := sub64_eq_of_le (by omega) (by omega)
    have hdt : add64 (T - (d + 2)) 1 = T - d - 1 := by rw [add64_eq_of_lt (by omega)]; omega
    have hT1 : T - d - 1 ≤ 2 ^ 16 := by omega
    have hprod : (T - d - 1) * R < W64 :=
      lt_of_le_of_lt (Nat.mul_le_mul hT1 hRb) (by norm_num [W64])
    have hmul : mul64 (T - d - 1) R = (T - d - 1) * R := mul64_eq_of_lt hprod
    have hadd0 : add64 0 ((T - d - 1) * R) = (T - d - 1) * R := by
      rw [add64_eq_of_lt (by omega)]; omega
    rw [hov]
    simp only [fmpr_rec]
    simp [sortCands, List.insertionSort, List.orderedInsert, List.mapM.loop, hd, ht,
      hnot, hm0, ha0, hv, htime2, hfr2, hR, hins, hne, hsub, hdt, hmul, hadd0, List.max?]

/-- Witness for C2 at the concrete one-valve instance (R = 1, d = 1, T = 5),
where the search returns (5 - 1 - 1) * 1 = 3. -/
theorem C2_one_valve_value_witness :
    fmpr_rec exInfoOne (2 + 2) (initialValves (interesting_valves exInfoOne)) 0 1 0 0 5 =
      some ((5 - 1 - 1) * 1) :=
  (C2_one_valve_value exInfoOne 1 1 1 5 2 (by decide) (by decide) (by decide) (by decide)
    (by decide) (by decide) (by decide) (by decide)).2 (by decide)

theorem mem_of_false_mem_hmInsert {m : List (Nat × Bool)} {k x : Nat}
    (h : (x, false) ∈ hmInsert m k true) : (x, false) ∈ m ∧ x ≠ k := by
  unfold hmInsert at h
  by_cases hany : m.any (fun p => p.1 == k)
  · rw [if_pos hany] at h
    obtain ⟨q, hq, hqe⟩ := List.mem_map.mp h
    by_cases hqk : q.1 = k
    · rw [if_pos hqk] at hqe
      exact absurd (congrArg Prod.snd hqe) (by simp)
    · rw [if_neg hqk] at hqe
      subst hqe
      exact ⟨hq, hqk⟩
  · rw [if_neg hany] at h
    rcases List.mem_append.mp h with h1 | h1
    · refine ⟨h1, fun hxk => ?_⟩
      subst hxk
      exact hany (List.any_eq_true.mpr ⟨(x, false), h1, by simp⟩)
    · simp at h1

theorem countP_flip_le (k : Nat) (m : List (Nat × Bool)) :
    m.countP (fun p => !(if p.1 = k then ((k, true) : Nat × Bool) else p).2) ≤
      m.countP (fun p => !p.2) := by
  induction m with
  | nil => exact Nat.le_refl _
  | cons q m ih =>
    obtain ⟨q1, q2⟩ := q
    rw [List.countP_cons, List.countP_cons]
    by_cases hq : q1 = k
    · subst hq
      cases q2 <;> simp <;> omega
    · simp [hq]
      omega

theorem countP_flip_lt (k : Nat) (m : List (Nat × Bool)) (hk : (k, false) ∈ m) :
    m.countP (fun p => !(if p.1 = k then ((k, true) : Nat × Bool) else p).2) <
      m.countP (fun p => !p.2) := by
  induction m with
  | nil => simp at hk
  | cons q m ih =>
    obtain ⟨q1, q2⟩ := q
    rw [List.countP_cons, List.countP_cons]
    rcases List.mem_cons.mp hk with hqk | hk2
    · injection hqk with h1 h2
      subst h1; subst h2
      have := countP_flip_le k m
      simp
      omega
    · have := ih hk2
      by_cases hq : q1 = k
      · subst hq
        cases q2 <;> simp <;> omega
      · simp [hq]
        omega

theorem countFalse_hmInsert_lt {m : List (Nat × Bool)} {k : Nat}
    (hk : (k, false) ∈ m) : countFalse (hmInsert m k true) < countFalse m := by
  have hany : m.any (fun p => p.1 == k) := List.any_eq_true.mpr ⟨(k, false), hk, by simp⟩
  rw [hmInsert, if_pos hany, countFalse, List.countP_map, countFalse]
  exact countP_flip_lt k m hk

theorem mapM_isSome_of_forall {α : Type} (f : α → Option Nat) (l : List α)
    (h : ∀ a ∈ l, (f a).isSome) : ∃ rs, l.mapM f = some rs ∧ rs.length = l.length := by
  induction l with
  | nil => exact ⟨[], rfl, rfl⟩
  | cons a l ih =>
    obtain ⟨b, hb⟩ := Option.isSome_iff_exists.mp (h a (List.mem_cons_self a l))
    obtain ⟨rs, hrs, hlen⟩ := ih (fun x hx => h x (List.mem_cons_of_mem a hx))
    refine ⟨b :: rs, ?_, by simp [hlen]⟩
    rw [List.mapM_cons, hb, hrs]
    rfl

theorem max?_isSome_of_ne_nil {l : List Nat} (h : l ≠ []) : l.max?.isSome := by
  cases l with
  | nil => exact absurd rfl h
  | cons a l => simp [List.max?]

theorem false_mem_of_mem_cands {info : VolcanoInfo} {valve vid : Nat}
    {ov : List (Nat × Bool)}
    (h : vid ∈ sortCands info valve ((ov.filter (fun p => !p.2)).map (fun p => p.1))) :
    (vid, false) ∈ ov := by
  have hmem := (List.perm_insertionSort
    (fun a b => valve_heuristic info a valve ≤ valve_heuristic info b valve) _).subset h
  obtain ⟨p, hp, hpe⟩ := List.mem_map.mp hmem
  obtain ⟨hpov, hpf⟩ := List.mem_filter.mp hp
  have : p = (vid, false) := by
    obtain ⟨a, b⟩ := p
    simp at hpf hpe
    simp [hpe, hpf]
  exact this ▸ hpov

theorem fmpr_rec_isSome (info : VolcanoInfo) :
    ∀ (fuel : Nat) (ov : List (Nat × Bool)) (valve time fr fv tl : Nat),
      (0, false) ∉ ov → (valve ≠ 0 → (valve, false) ∈ ov) →
      countFalse ov + (if valve = 0 then 3 else 2) ≤ fuel →
      (fmpr_rec info fuel ov valve time fr fv tl).isSome := by
  intro fuel
  induction fuel with
  | zero => intro ov valve time fr fv tl h0 hval hfuel; split_ifs at hfuel <;> omega
  | succ n ih =>
    intro ov valve time fr fv tl h0 hval hfuel
    simp only [fmpr_rec]
    set time1 := if valve = 0 then time else add64 time 1 with htime1
    set fv1 := if valve = 0 then fv else add64 fv fr with hfv1
    set fr1 := if valve = 0 then fr else add64 fr (info.flow_rate valve) with hfr1
    set ov1 := if valve = 0 then ov else hmInsert ov valve true with hov1
    by_cases hterm : valve ≠ 0 ∧ time1 = tl
    · rw [if_pos hterm]; rfl
    rw [if_neg hterm]
    by_cases hall : ov1.all (fun p => p.2)
    · rw [if_pos hall]; rfl
    rw [if_neg hall]
    -- facts about the post-activation map
    have h0' : (0, false) ∉ ov1 := by
      rw [hov1]
      by_cases hv : valve = 0
      · rw [if_pos hv]; exact h0
      · rw [if_neg hv]
        intro hmem
        exact h0 (mem_of_false_mem_hmInsert hmem).1
    have hcnt : countFalse ov1 + 2 ≤ n := by
      rw [hov1]
      by_cases hv : valve = 0
      · rw [if_pos hv]
        rw [if_pos hv] at hfuel
        omega
      · rw [if_neg hv]
        rw [if_neg hv] at hfuel
        have := countFalse_hmInsert_lt (hval hv)
        omega
    -- every branch of the candidate loop produces a value
    have hbranch : ∀ vid ∈ sortCands info valve
        ((ov1.filter (fun p => !p.2)).map (fun p => p.1)),
        (if tl ≤ add64 time1 (info.distance valve vid)
          then some (add64 fv1 (mul64 fr1 (add64 (sub64 tl time1) 1)))
          else fmpr_rec info n ov1 vid (add64 time1 (info.distance valve vid)) fr1
            (add64 fv1 (mul64 fr1 (info.distance valve vid))) tl).isSome := by
      intro vid hvid
      by_cases ht : tl ≤ add64 time1 (info.distance valve vid)
      · rw [if_pos ht]; rfl
      · rw [if_neg ht]
        have hmem : (vid, false) ∈ ov1 := false_mem_of_mem_cands hvid
        have hvid0 : vid ≠ 0 := fun h => h0' (h ▸ hmem)
        exact ih ov1 vid _ fr1 _ tl h0' (fun _ => hmem) (by rw [if_neg hvid0]; omega)
    obtain ⟨rs, hrs, hlen⟩ := mapM_isSome_of_forall _ _ hbranch
    rw [hrs]
    have hne : rs ≠ [] := by
      intro hnil
      have hex : ∃ x, (x, false) ∈ ov1 := by simpa using hall
      obtain ⟨x, hx⟩ := hex
      have hperm := List.perm_insertionSort
        (fun a b => valve_heuristic info a valve ≤ valve_heuristic info b valve)
        ((ov1.filter (fun p => !p.2)).map (fun p => p.1))
      have hcand : x ∈ sortCands info valve ((ov1.filter (fun p => !p.2)).map (fun p => p.1)) :=
        hperm.mem_iff.mpr (List.mem_map.mpr ⟨(x, false), List.mem_filter.mpr ⟨hx, by simp⟩, rfl⟩)
      have hz : sortCands info valve ((ov1.filter (fun p => !p.2)).map (fun p => p.1)) = [] :=
        List.length_eq_zero.mp (by rw [← hlen, hnil]; rfl)
      rw [hz] at hcand
      exact absurd hcand (List.not_mem_nil x)
    exact max?_isSome_of_ne_nil hne

/-- C8: the single-agent search is total. With the call-site map invariants
(the start valve is never unopened, a non-start current valve is an unopened
key) and fuel at least the number of unopened valves plus a constant — which
the call sites always supply, since each recursive call opens one valve —
the recursion always returns a value: the final max().unwrap() never sees an
empty list. When the interesting-valve set is empty, the search returns 0. -/
theorem C8_search_total :
    (∀ (info : VolcanoInfo) (fuel : Nat) (ov : List (Nat × Bool))
      (valve time fr fv tl : Nat),
      (0, false) ∉ ov → (valve ≠ 0 → (valve, false) ∈ ov) →
      countFalse ov + (if valve = 0 then 3 else 2) ≤ fuel →
      (fmpr_rec info fuel ov valve time fr fv tl).isSome) ∧
    (∀ info : VolcanoInfo, interesting_valves info = [] →
      find_max_pressure_release info = some 0) := by
  constructor
  · intro info fuel ov valve time fr fv tl h0 hval hfuel
    exact fmpr_rec_isSome info fuel ov valve time fr fv tl h0 hval hfuel
  · intro info hint
    rw [find_max_pressure_release, hint]
    simp only [initialValves, List.map_nil, hmInsert, List.any_nil, Bool.false_eq_true,
      if_false, List.nil_append, searchFuel, countFalse, List.countP_cons, List.countP_nil]
    simp only [fmpr_rec]
    simp [add64, mul64]

/-- Witness for C8: the search returns a value on the concrete one-valve
instance, and the single-agent search on the no-interesting-valve instance
returns 0. -/
theorem C8_search_total_witness :
    (fmpr_rec exInfoOne 4 [(1, false), (0, true)] 0 1 0 0 30).isSome ∧
    find_max_pressure_release exInfoEmpty = some 0 :=
  ⟨C8_search_total.1 exInfoOne 4 [(1, false), (0, true)] 0 1 0 0 30 (by decide) (by decide)
    (by decide),
   C8_search_total.2 exInfoEmpty (by decide)⟩

theorem orderedInsert_congr {r s : Nat → Nat → Prop} [DecidableRel r] [DecidableRel s]
    (a : Nat) (l : List Nat) (h : ∀ b ∈ l, r a b ↔ s a b) :
    List.orderedInsert r a l = List.orderedInsert s a l := by
  induction l with
  | nil => rfl
  | cons b l ih =>
    rw [List.orderedInsert, List.orderedInsert]
    exact if_congr (h b (List.mem_cons_self b l)) rfl
      (congrArg (b :: ·) (ih (fun c hc => h c (List.mem_cons_of_mem b hc))))

theorem insertionSort_congr {r s : Nat → Nat → Prop} [DecidableRel r] [DecidableRel s] :
    ∀ l : List Nat, (∀ a ∈ l, ∀ b ∈ l, r a b ↔ s a b) →
      List.insertionSort r l = List.insertionSort s l
  | [], _ => rfl
  | a :: l, h => by
    rw [List.insertionSort, List.insertionSort]
    rw [insertionSort_congr l (fun c hc d hd =>
      h c (List.mem_cons_of_mem a hc) d (List.mem_cons_of_mem a hd))]
    refine orderedInsert_congr a _ (fun b hb => ?_)
    have hbl : b ∈ l := (List.perm_insertionSort s l).subset hb
    exact h a (List.mem_cons_self a l) b (List.mem_cons_of_mem a hbl)

theorem mapM_congr {α : Type} {f g : α → Option Nat} :
    ∀ l : List α, (∀ a ∈ l, f a = g a) → l.mapM f = l.mapM g
  | [], _ => rfl
  | a :: l, h => by
    rw [List.mapM_cons, List.mapM_cons, h a (List.mem_cons_self a l),
      mapM_congr l (fun b hb => h b (List.mem_cons_of_mem a hb))]

theorem hmInsert_keys_subset {m : List (Nat × Bool)} {a : Nat} {v : Bool} {k : Nat}
    (h : k ∈ (hmInsert m a v).map (fun p => p.1)) :
    k ∈ m.map (fun p => p.1) ∨ k = a := by
  unfold hmInsert at h
  by_cases hany : m.any (fun p => p.1 == a)
  · rw [if_pos hany] at h
    obtain ⟨q, hq, hqe⟩ := List.mem_map.mp h
    obtain ⟨w, hw, hwe⟩ := List.mem_map.mp hq
    by_cases hwa : w.1 = a
    · rw [if_pos hwa] at hwe
      right
      rw [← hqe, ← hwe]
    · rw [if_neg hwa] at hwe
      left
      exact List.mem_map.mpr ⟨w, hw, by rw [hwe, hqe]⟩
  · rw [if_neg hany] at h
    rw [List.map_append] at h
    rcases List.mem_append.mp h with h1 | h1
    · exact Or.inl h1
    · simp at h1
      exact Or.inr h1

theorem valve_heuristic_congr {info info2 : VolcanoInfo} {a valve : Nat}
    (hflow : info.flow_rate a = info2.flow_rate a)
    (hdist : info.distance valve a = info2.distance valve a) :
    valve_heuristic info a valve = valve_heuristic info2 a valve := by
  rw [valve_heuristic, valve_heuristic, hflow, hdist]

theorem fmpr_rec_congr (info info2 : VolcanoInfo) :
    ∀ (fuel : Nat) (ov : List (Nat × Bool)) (valve time fr fv tl : Nat),
      (∀ k, (k ∈ ov.map (fun p => p.1) ∨ k = valve) → info.flow_rate k = info2.flow_rate k) →
      (∀ a b, (a ∈ ov.map (fun p => p.1) ∨ a = valve) →
        (b ∈ ov.map (fun p => p.1) ∨ b = valve) → info.distance a b = info2.distance a b) →
      fmpr_rec info fuel ov valve time fr fv tl =
        fmpr_rec info2 fuel ov valve time fr fv tl := by
  intro fuel
  induction fuel with
  | zero => intro ov valve time fr fv tl _ _; rfl
  | succ n ih =>
    intro ov valve time fr fv tl hflow hdist
    have hfrv : info.flow_rate valve = info2.flow_rate valve := hflow valve (Or.inr rfl)
    simp only [fmpr_rec, hfrv]
    by_cases h1 : valve ≠ 0 ∧ (if valve = 0 then time else add64 time 1) = tl
    · rw [if_pos h1, if_pos h1]
    rw [if_neg h1, if_neg h1]
    by_cases h2 : ((if valve = 0 then ov else hmInsert ov valve true).all fun p => p.2) = true
    · rw [if_pos h2, if_pos h2]
    rw [if_neg h2, if_neg h2]
    -- keys of the post-activation map are keys of ov plus possibly valve
    have hkeys : ∀ k, k ∈ (if valve = 0 then ov else hmInsert ov valve true).map
        (fun p => p.1) → k ∈ ov.map (fun p => p.1) ∨ k = valve := by
      intro k hk
      by_cases hv : valve = 0
      · rw [if_pos hv] at hk
        exact Or.inl hk
      · rw [if_neg hv] at hk
        exact hmInsert_keys_subset hk
    have hmemkeys : ∀ vid, vid ∈ sortCands info valve
        (((if valve = 0 then ov else hmInsert ov valve true).filter
          (fun p => !p.2)).map (fun p => p.1)) →
        vid ∈ ov.map (fun p => p.1) ∨ vid = valve := by
      intro vid hvid
      apply hkeys
      have := (List.perm_insertionSort
        (fun a b => valve_heuristic info a valve ≤ valve_heuristic info b valve) _).subset hvid
      obtain ⟨p, hp, hpe⟩ := List.mem_map.mp this
      exact List.mem_map.mpr ⟨p, (List.mem_filter.mp hp).1, hpe⟩
    -- the two candidate orders agree
    have hcands : sortCands info valve
        (((if valve = 0 then ov else hmInsert ov valve true).filter
          (fun p => !p.2)).map (fun p => p.1)) =
        sortCands info2 valve
        (((if valve = 0 then ov else hmInsert ov valve true).filter
          (fun p => !p.2)).map (fun p => p.1)) := by
      apply insertionSort_congr
      intro a ha b hb
      have hka : a ∈ ov.map (fun p => p.1) ∨ a = valve := by
        apply hkeys
        obtain ⟨p, hp, hpe⟩ := List.mem_map.mp ha
        exact List.mem_map.mpr ⟨p, (List.mem_filter.mp hp).1, hpe⟩
      have hkb : b ∈ ov.map (fun p => p.1) ∨ b = valve := by
        apply hkeys
        obtain ⟨p, hp, hpe⟩ := List.mem_map.mp hb
        exact List.mem_map.mpr ⟨p, (List.mem_filter.mp hp).1, hpe⟩
      rw [valve_heuristic_congr (hflow a hka) (hdist valve a (Or.inr rfl) hka),
        valve_heuristic_congr (hflow b hkb) (hdist valve b (Or.inr rfl) hkb)]
    rw [← hcands]
    refine congrArg (fun x => x.bind (fun results => results.max?)) (mapM_congr _ ?_)
    intro vid hvid
    have hkvid := hmemkeys vid hvid
    have hdvv : info.distance valve vid = info2.distance valve vid :=
      hdist valve vid (Or.inr rfl) hkvid
    simp only [hdvv]
    by_cases ht : tl ≤ add64 (if valve = 0 then time else add64 time 1)
        (info2.distance valve vid)
    · rw [if_pos ht, if_pos ht]
    rw [if_neg ht, if_neg ht]
    apply ih
    · intro k hk
      rcases hk with hk | hk
      · exact hflow k (hkeys k hk)
      · exact hflow k (hk ▸ hkvid)
    · intro a b ha hb
      have hka : a ∈ ov.map (fun p => p.1) ∨ a = valve := by
        rcases ha with ha | ha
        · exact hkeys a ha
        · exact ha ▸ hkvid
      have hkb : b ∈ ov.map (fun p => p.1) ∨ b = valve := by
        rcases hb with hb | hb
        · exact hkeys b hb
        · exact hb ▸ hkvid
      exact hdist a b hka hkb

theorem not_false_zero_initialValves (vs : List Nat) : ((0 : Nat), false) ∉ initialValves vs := by
  unfold initialValves hmInsert
  by_cases hany : (vs.map (fun v => (v, false))).any (fun p => p.1 == 0)
  · rw [if_pos hany]
    intro hmem
    obtain ⟨q, hq, hqe⟩ := List.mem_map.mp hmem
    by_cases hq0 : q.1 = 0
    · rw [if_pos hq0] at hqe
      exact absurd (congrArg Prod.snd hqe) (by simp)
    · rw [if_neg hq0] at hqe
      exact hq0 (congrArg Prod.fst (hqe.trans rfl))
  · rw [if_neg hany]
    intro hmem
    rcases List.mem_append.mp hmem with h1 | h1
    · obtain ⟨q, _, hqe⟩ := List.mem_map.mp h1
      exact hany (List.any_eq_true.mpr ⟨(q, false), List.mem_map.mpr ⟨q, by assumption, rfl⟩,
        by simpa using congrArg Prod.fst hqe⟩)
    · simp at h1

theorem initialValves_keys {vs : List Nat} {k : Nat}
    (h : k ∈ (initialValves vs).map (fun p => p.1)) : k ∈ vs ∨ k = 0 := by
  rcases hmInsert_keys_subset h with h1 | h1
  · obtain ⟨q, hq, hqe⟩ := List.mem_map.mp h1
    obtain ⟨w, hw, hwe⟩ := List.mem_map.mp hq
    left
    rw [← hqe, ← hwe]
    exact hw
  · exact Or.inr h1

theorem gvs_isSome (info : VolcanoInfo) (s : List Nat) :
    (get_max_pressure_release_from_valve_set info s).isSome := by
  unfold get_max_pressure_release_from_valve_set
  apply fmpr_rec_isSome
  · exact not_false_zero_initialValves s
  · intro h; exact absurd rfl h
  · rw [searchFuel]; simp

theorem foldlM_max_eq (info : VolcanoInfo) :
    ∀ (L : List (List Nat × List Nat)) (acc : Nat),
      L.foldlM (fun acc p => do
        let h ← get_max_pressure_release_from_valve_set info p.1
        let e ← get_max_pressure_release_from_valve_set info p.2
        pure (max acc (add64 h e))) acc =
      some (L.foldl (fun acc p =>
        max acc (add64 ((get_max_pressure_release_from_valve_set info p.1).getD 0)
          ((get_max_pressure_release_from_valve_set info p.2).getD 0))) acc)
  | [], acc => rfl
  | p :: L, acc => by
    obtain ⟨h, hh⟩ := Option.isSome_iff_exists.mp (gvs_isSome info p.1)
    obtain ⟨e, he⟩ := Option.isSome_iff_exists.mp (gvs_isSome info p.2)
    rw [List.foldlM_cons, List.foldl_cons]
    simp only [hh, he, Option.getD_some]
    rw [← foldlM_max_eq info L (max acc (add64 h e))]
    rfl

/-- C3: the two-agent search equals the maximum, over the surviving splits,
of the sum of two independent single-agent results, each with the 26-minute
secondary budget; and each agent's search depends only on the rates and
distances of its own subset plus the start valve, so neither agent can ever
use (visit) a node of the other agent's subset. -/
theorem C3_two_agent_search (info : VolcanoInfo) :
    find_max_pressure_release_with_elephant info = some (two_agent_spec info) ∧
    (∀ (info2 : VolcanoInfo) (s : List Nat),
      (∀ k, (k ∈ s ∨ k = 0) → info.flow_rate k = info2.flow_rate k) →
      (∀ a b, (a ∈ s ∨ a = 0) → (b ∈ s ∨ b = 0) → info.distance a b = info2.distance a b) →
      get_max_pressure_release_from_valve_set info s =
        get_max_pressure_release_from_valve_set info2 s) := by
  constructor
  · rw [find_max_pressure_release_with_elephant, two_agent_spec, List.foldl_map]
    exact foldlM_max_eq info (valve_sets_filtered info) 0
  · intro info2 s hflow hdist
    unfold get_max_pressure_release_from_valve_set
    have hsame : searchFuel (initialValves s) = searchFuel (initialValves s) := rfl
    apply fmpr_rec_congr
    · intro k hk
      rcases hk with hk | hk
      · exact hflow k (initialValves_keys hk)
      · exact hflow k (Or.inr hk)
    · intro a b ha hb
      have hka : a ∈ s ∨ a = 0 := by
        rcases ha with ha | ha
        · exact initialValves_keys ha
        · exact Or.inr ha
      have hkb : b ∈ s ∨ b = 0 := by
        rcases hb with hb | hb
        · exact initialValves_keys hb
        · exact Or.inr hb
      exact hdist a b hka hkb

/-- Witness for C3: the equality on a concrete five-valve volcano, and the
independence instance for two volcano infos agreeing on valve 1 and the
start valve. -/
theorem C3_two_agent_search_witness :
    find_max_pressure_release_with_elephant exInfoFive = some (two_agent_spec exInfoFive) ∧
    get_max_pressure_release_from_valve_set exInfoFive [1] =
      get_max_pressure_release_from_valve_set exInfoHeur [1] :=
  ⟨(C3_two_agent_search exInfoFive).1,
   (C3_two_agent_search exInfoFive).2 exInfoHeur [1]
     (by
       intro k hk
       rcases hk with hk | hk
       · simp at hk; subst hk; decide
       · subst hk; decide)
     (by intro a b _ _; rfl)⟩

theorem key_mem_of_false_mem {ov : List (Nat × Bool)} {k : Nat}
    (h : (k, false) ∈ ov) : k ∈ ov.map (fun p => p.1) :=
  List.mem_map.mpr ⟨(k, false), h, rfl⟩

theorem keys_hmInsert_of_mem {ov : List (Nat × Bool)} {valve k : Nat} {v : Bool}
    (hkey : valve ∈ ov.map (fun p => p.1))
    (h : k ∈ (hmInsert ov valve v).map (fun p => p.1)) : k ∈ ov.map (fun p => p.1) := by
  rcases hmInsert_keys_subset h with h1 | h1
  · exact h1
  · exact h1 ▸ hkey

theorem fmpr_step_act (info : VolcanoInfo) (n : Nat) (ov : List (Nat × Bool))
    (valve time fr fv tl : Nat) (hSB : SearchBounds info ov valve time fr fv tl)
    (hv : valve ≠ 0) (htime : time + 1 ≤ tl) :
    fmpr_rec info (n + 1) ov valve time fr fv tl =
      (if time + 1 = tl then some (fv + fr)
      else if ((hmInsert ov valve true).all (fun p => p.2))
        then some ((fv + fr) + (tl - time) * (fr + info.flow_rate valve))
      else ((sortCands info valve (((hmInsert ov valve true).filter
          (fun p => !p.2)).map (fun p => p.1))).mapM
        (fun vid =>
          if tl ≤ time + 1 + info.distance valve vid
            then some ((fv + fr) + (fr + info.flow_rate valve) * (tl - time))
            else fmpr_rec info n (hmInsert ov valve true) vid
              (time + 1 + info.distance valve vid) (fr + info.flow_rate valve)
              ((fv + fr) + (fr + info.flow_rate valve) * info.distance valve vid)
              tl)).bind (fun results => results.max?)) := by
  obtain ⟨htl, hrates, hdists, hkey, hA8, hA9⟩ := hSB
  have hW16 : (2 : Nat) ^ 16 < W64 := by norm_num [W64]
  have hWbig : (2 : Nat) ^ 63 + 2 ^ 32 + 2 ^ 50 < W64 := by norm_num [W64]
  have hp1 : (2 : Nat) ^ 33 * (2 ^ 16 + 1) ≤ 2 ^ 50 := by norm_num
  have hfr32 : fr ≤ 2 ^ 32 := by omega
  have hfv63 : fv ≤ 2 ^ 63 := le_trans (Nat.le_add_right _ _) hA9
  have hr16 : info.flow_rate valve ≤ 2 ^ 16 := hrates valve hkey
  have e1 : add64 time 1 = time + 1 := add64_eq_of_lt (by omega)
  have e2 : add64 fv fr = fv + fr := add64_eq_of_lt (by omega)
  have e3 : add64 fr (info.flow_rate valve) = fr + info.flow_rate valve :=
    add64_eq_of_lt (by omega)
  have e4 : sub64 tl (time + 1) = tl - (time + 1) := sub64_eq_of_le htime (by omega)
  have e5 : add64 (tl - (time + 1)) 1 = tl - time := by
    rw [add64_eq_of_lt (by omega)]; omega
  have hdtb : tl - time ≤ 2 ^ 16 + 1 := by omega
  have hfr1b : fr + info.flow_rate valve ≤ 2 ^ 33 := by omega
  have hprod : (fr + info.flow_rate valve) * (tl - time) ≤ 2 ^ 50 :=
    le_trans (Nat.mul_le_mul hfr1b hdtb) hp1
  have hprod2 : (tl - time) * (fr + info.flow_rate valve) ≤ 2 ^ 50 := by
    rw [Nat.mul_comm]; exact hprod
  have e6 : mul64 (tl - time) (fr + info.flow_rate valve) =
      (tl - time) * (fr + info.flow_rate valve) := mul64_eq_of_lt (by omega)
  have e7 : add64 (fv + fr) ((tl - time) * (fr + info.flow_rate valve)) =
      (fv + fr) + (tl - time) * (fr + info.flow_rate valve) := add64_eq_of_lt (by omega)
  have e8 : mul64 (fr + info.flow_rate valve) (tl - time) =
      (fr + info.flow_rate valve) * (tl - time) := mul64_eq_of_lt (by omega)
  have e9 : add64 (fv + fr) ((fr + info.flow_rate valve) * (tl - time)) =
      (fv + fr) + (fr + info.flow_rate valve) * (tl - time) := add64_eq_of_lt (by omega)
  simp only [fmpr_rec, if_neg hv, e1, e2, e3]
  by_cases ht1 : time + 1 = tl
  · rw [if_pos (by exact ⟨hv, ht1⟩), if_pos ht1]
  rw [if_neg (by intro hc; exact ht1 hc.2), if_neg ht1]
  by_cases hall : ((hmInsert ov valve true).all (fun p => p.2)) = true
  · rw [if_pos hall, if_pos hall, e4, e5, e6, e7]
  rw [if_neg hall, if_neg hall]
  refine congrArg (fun x => x.bind (fun results => results.max?)) (mapM_congr _ ?_)
  intro vid hvid
  have hvidkey : vid ∈ ov.map (fun p => p.1) :=
    keys_hmInsert_of_mem hkey (key_mem_of_false_mem (false_mem_of_mem_cands hvid))
  have hd16 : info.distance valve vid ≤ 2 ^ 16 := hdists valve hkey vid hvidkey
  have f1 : add64 (time + 1) (info.distance valve vid) =
      time + 1 + info.distance valve vid := add64_eq_of_lt (by omega)
  have hpd : (fr + info.flow_rate valve) * info.distance valve vid ≤ 2 ^ 50 :=
    le_trans (Nat.mul_le_mul hfr1b (le_trans hd16 (by norm_num))) hp1
  have f2 : mul64 (fr + info.flow_rate valve) (info.distance valve vid) =
      (fr + info.flow_rate valve) * info.distance valve vid := mul64_eq_of_lt (by omega)
  have f3 : add64 (fv + fr) ((fr + info.flow_rate valve) * info.distance valve vid) =
      (fv + fr) + (fr + info.flow_rate valve) * info.distance valve vid :=
    add64_eq_of_lt (by omega)
  rw [f1]
  by_cases hto : tl ≤ time + 1 + info.distance valve vid
  · rw [if_pos hto, if_pos hto, e4, e5, e8, e9]
  · rw [if_neg hto, if_neg hto, f2, f3]

theorem fmpr_step_start (info : VolcanoInfo) (n : Nat) (ov : List (Nat × Bool))
    (time fr fv tl : Nat) (hSB : SearchBounds info ov 0 time fr fv tl)
    (htime : time ≤ tl) :
    fmpr_rec info (n + 1) ov 0 time fr fv tl =
      (if (ov.all (fun p => p.2)) then some (fv + (tl - time + 1) * fr)
      else ((sortCands info 0 ((ov.filter (fun p => !p.2)).map (fun p => p.1))).mapM
        (fun vid =>
          if tl ≤ time + info.distance 0 vid
            then some (fv + fr * (tl - time + 1))
            else fmpr_rec info n ov vid (time + info.distance 0 vid) fr
              (fv + fr * info.distance 0 vid) tl)).bind (fun results => results.max?)) := by
  obtain ⟨htl, hrates, hdists, hkey, hA8, hA9⟩ := hSB
  have hW16 : (2 : Nat) ^ 16 < W64 := by norm_num [W64]
  have hWbig : (2 : Nat) ^ 63 + 2 ^ 32 + 2 ^ 50 < W64 := by norm_num [W64]
  have hp1 : (2 : Nat) ^ 33 * (2 ^ 16 + 1) ≤ 2 ^ 50 := by norm_num
  have hfr32 : fr ≤ 2 ^ 32 := by omega
  have hfv63 : fv ≤ 2 ^ 63 := le_trans (Nat.le_add_right _ _) hA9
  have e4 : sub64 tl time = tl - time := sub64_eq_of_le htime (by omega)
  have e5 : add64 (tl - time) 1 = tl - time + 1 := add64_eq_of_lt (by omega)
  have hdtb : tl - time + 1 ≤ 2 ^ 16 + 1 := by omega
  have hfrb : fr ≤ 2 ^ 33 := by omega
  have hprod : fr * (tl - time + 1) ≤ 2 ^ 50 := le_trans (Nat.mul_le_mul hfrb hdtb) hp1
  have hprod2 : (tl - time + 1) * fr ≤ 2 ^ 50 := by rw [Nat.mul_comm]; exact hprod
  have e6 : mul64 (tl - time + 1) fr = (tl - time + 1) * fr := mul64_eq_of_lt (by omega)
  have e7 : add64 fv ((tl - time + 1) * fr) = fv + (tl - time + 1) * fr :=
    add64_eq_of_lt (by omega)
  have e8 : mul64 fr (tl - time + 1) = fr * (tl - time + 1) := mul64_eq_of_lt (by omega)
  have e9 : add64 fv (fr * (tl - time + 1)) = fv + fr * (tl - time + 1) :=
    add64_eq_of_lt (by omega)
  simp only [fmpr_rec, eq_self_iff_true, if_true, not_true, false_and, if_false]
  rw [if_neg (show ¬ ((0 : Nat) ≠ 0 ∧ time = tl) from fun hc => hc.1 rfl)]
  by_cases hall : (ov.all (fun p => p.2)) = true
  · rw [if_pos hall, if_pos hall, e4, e5, e6, e7]
  rw [if_neg hall, if_neg hall]
  refine congrArg (fun x => x.bind (fun results => results.max?)) (mapM_congr _ ?_)
  intro vid hvid
  have hvidkey : vid ∈ ov.map (fun p => p.1) :=
    key_mem_of_false_mem (false_mem_of_mem_cands hvid)
  have hd16 : info.distance 0 vid ≤ 2 ^ 16 := hdists 0 hkey vid hvidkey
  have f1 : add64 time (info.distance 0 vid) = time + info.distance 0 vid :=
    add64_eq_of_lt (by omega)
  have hpd : fr * info.distance 0 vid ≤ 2 ^ 50 :=
    le_trans (Nat.mul_le_mul hfrb (le_trans hd16 (by norm_num))) hp1
  have f2 : mul64 fr (info.distance 0 vid) = fr * info.distance 0 vid :=
    mul64_eq_of_lt (by omega)
  have f3 : add64 fv (fr * info.distance 0 vid) = fv + fr * info.distance 0 vid :=
    add64_eq_of_lt (by omega)
  rw [f1]
  by_cases hto : tl ≤ time + info.distance 0 vid
  · rw [if_pos hto, if_pos hto, e4, e5, e8, e9]
  · rw [if_neg hto, if_neg hto, f2, f3]

theorem SearchBounds_mono_tl {info : VolcanoInfo} {ov : List (Nat × Bool)}
    {valve time fr fv t1 t2 : Nat} (hSB : SearchBounds info ov valve time fr fv t2)
    (h12 : t1 ≤ t2) : SearchBounds info ov valve time fr fv t1 := by
  obtain ⟨htl, hrates, hdists, hkey, hA8, hA9⟩ := hSB
  refine ⟨by omega, hrates, hdists, hkey, hA8, ?_⟩
  have := Nat.mul_le_mul_left (fr + 2 ^ 16 * countFalse ov)
    (show t1 + 2 - time ≤ t2 + 2 - time by omega)
  omega

theorem SearchBounds_step_act {info : VolcanoInfo} {ov : List (Nat × Bool)}
    {valve time fr fv tl vid : Nat}
    (hSB : SearchBounds info ov valve time fr fv tl)
    (hvf : (valve, false) ∈ ov)
    (hvidf : (vid, false) ∈ hmInsert ov valve true)
    (ht : time + 1 + info.distance valve vid < tl) :
    SearchBounds info (hmInsert ov valve true) vid
      (time + 1 + info.distance valve vid) (fr + info.flow_rate valve)
      ((fv + fr) + (fr + info.flow_rate valve) * info.distance valve vid) tl := by
  obtain ⟨htl, hrates, hdists, hkey, hA8, hA9⟩ := hSB
  have hkeys : ∀ k, k ∈ (hmInsert ov valve true).map (fun p => p.1) →
      k ∈ ov.map (fun p => p.1) := fun k hk => keys_hmInsert_of_mem hkey hk
  have hcnt : countFalse (hmInsert ov valve true) < countFalse ov := countFalse_hmInsert_lt hvf
  have hr16 : info.flow_rate valve ≤ 2 ^ 16 := hrates valve hkey
  have hd16 : info.distance valve vid ≤ 2 ^ 16 :=
    hdists valve hkey vid (hkeys vid (key_mem_of_false_mem hvidf))
  refine ⟨htl, fun k hk => hrates k (hkeys k hk),
    fun a ha b hb => hdists a (hkeys a ha) b (hkeys b hb),
    key_mem_of_false_mem hvidf, by omega, ?_⟩
  set S := fr + 2 ^ 16 * countFalse ov with hS
  set S1 := fr + info.flow_rate valve + 2 ^ 16 * countFalse (hmInsert ov valve true) with hS1
  have hS1S : S1 ≤ S := by omega
  have hfr1S : fr + info.flow_rate valve ≤ S1 := by omega
  have c1 : (fr + info.flow_rate valve) * info.distance valve vid ≤
      S * info.distance valve vid := Nat.mul_le_mul_right _ (le_trans hfr1S hS1S)
  have c2 : S1 * (tl + 2 - (time + 1 + info.distance valve vid)) ≤
      S * (tl + 2 - (time + 1 + info.distance valve vid)) := Nat.mul_le_mul_right _ hS1S
  have c3 : S * info.distance valve vid +
      S * (tl + 2 - (time + 1 + info.distance valve vid)) = S * (tl + 1 - time) := by
    rw [← Nat.left_distrib]
    congr 1
    omega
  have c4 : fr + S * (tl + 1 - time) ≤ S * (tl + 2 - time) := by
    have hfrS : fr ≤ S := Nat.le_add_right _ _
    have hmul : S * (tl + 2 - time) = S * (tl + 1 - time) + S := by
      rw [show tl + 2 - time = (tl + 1 - time) + 1 by omega, Nat.mul_succ]
    omega
  omega

theorem SearchBounds_step_start {info : VolcanoInfo} {ov : List (Nat × Bool)}
    {time fr fv tl vid : Nat}
    (hSB : SearchBounds info ov 0 time fr fv tl)
    (hvidf : (vid, false) ∈ ov)
    (ht : time + info.distance 0 vid < tl) :
    SearchBounds info ov vid (time + info.distance 0 vid) fr
      (fv + fr * info.distance 0 vid) tl := by
  obtain ⟨htl, hrates, hdists, hkey, hA8, hA9⟩ := hSB
  have hd16 : info.distance 0 vid ≤ 2 ^ 16 :=
    hdists 0 hkey vid (key_mem_of_false_mem hvidf)
  refine ⟨htl, hrates, hdists, key_mem_of_false_mem hvidf, hA8, ?_⟩
  set S := fr + 2 ^ 16 * countFalse ov with hS
  have hfrS : fr ≤ S := Nat.le_add_right _ _
  have c1 : fr * info.distance 0 vid ≤ S * info.distance 0 vid :=
    Nat.mul_le_mul_right _ hfrS
  have c3 : S * info.distance 0 vid +
      S * (tl + 2 - (time + info.distance 0 vid)) = S * (tl + 2 - time) := by
    rw [← Nat.left_distrib]
    congr 1
    omega
  omega

theorem foldl_max_init (xs : List Nat) : ∀ x y : Nat,
    xs.foldl max (max x y) = max x (xs.foldl max y) := by
  induction xs with
  | nil => intro x y; rfl
  | cons z xs ih =>
    intro x y
    rw [List.foldl_cons, List.foldl_cons, Nat.max_assoc, ih]

theorem max?_cons_eq_foldl (a : Nat) (l : List Nat) :
    (a :: l).max? = some (l.foldl max a) := rfl

theorem max?_cons_of_max? {xs : List Nat} {m : Nat} (h : xs.max? = some m) (x : Nat) :
    (x :: xs).max? = some (max x m) := by
  cases xs with
  | nil => simp at h
  | cons y ys =>
    rw [max?_cons_eq_foldl] at h
    injection h with h
    rw [max?_cons_eq_foldl, List.foldl_cons, foldl_max_init, h]

theorem mapM_mem_of_some {α : Type} {f : α → Option Nat} :
    ∀ {l : List α} {rs : List Nat}, l.mapM f = some rs → ∀ a ∈ l, ∃ r ∈ rs, f a = some r := by
  intro l
  induction l with
  | nil => intro rs _ a ha; simp at ha
  | cons b l ih =>
    intro rs hrs a ha
    rw [List.mapM_cons] at hrs
    obtain ⟨x, hx, hrest⟩ := Option.bind_eq_some.mp hrs
    obtain ⟨xs, hxs, hpure⟩ := Option.bind_eq_some.mp hrest
    have hrseq : rs = x :: xs := (Option.some_inj.mp hpure).symm
    subst hrseq
    rcases List.mem_cons.mp ha with h1 | h1
    · exact ⟨x, List.mem_cons_self x xs, h1 ▸ hx⟩
    · obtain ⟨r, hr, hfr⟩ := ih hxs a h1
      exact ⟨r, List.mem_cons_of_mem x hr, hfr⟩

theorem mapM_max_le {α : Type} {f g : α → Option Nat} :
    ∀ l : List α, (∀ a ∈ l, ∃ x y, f a = some x ∧ g a = some y ∧ x ≤ y) → l ≠ [] →
    ∃ r1 r2, (l.mapM f).bind (fun results => results.max?) = some r1 ∧
      (l.mapM g).bind (fun results => results.max?) = some r2 ∧ r1 ≤ r2 := by
  intro l
  induction l with
  | nil => intro _ h; exact absurd rfl h
  | cons a l ih =>
    intro h _
    obtain ⟨x, y, hx, hy, hxy⟩ := h a (List.mem_cons_self a l)
    cases l with
    | nil =>
      refine ⟨x, y, ?_, ?_, hxy⟩
      · rw [List.mapM_cons, hx]; rfl
      · rw [List.mapM_cons, hy]; rfl
    | cons b l2 =>
      obtain ⟨r1, r2, h1, h2, h12⟩ := ih (fun c hc => h c (List.mem_cons_of_mem a hc))
        (by intro hc; exact absurd hc (by simp))
      obtain ⟨xs, hxs, hxs2⟩ := Option.bind_eq_some.mp h1
      obtain ⟨ys, hys, hys2⟩ := Option.bind_eq_some.mp h2
      refine ⟨max x r1, max y r2, ?_, ?_, max_le_max hxy h12⟩
      · rw [List.mapM_cons, hx, hxs]
        exact max?_cons_of_max? hxs2 x
      · rw [List.mapM_cons, hy, hys]
        exact max?_cons_of_max? hys2 y

theorem cands_ne_nil {info : VolcanoInfo} {valve : Nat} {ov1 : List (Nat × Bool)}
    (hall : ¬ ((ov1.all (fun p => p.2)) = true)) :
    sortCands info valve ((ov1.filter (fun p => !p.2)).map (fun p => p.1)) ≠ [] := by
  intro hnil
  have hex : ∃ x, (x, false) ∈ ov1 := by simpa using hall
  obtain ⟨x, hx⟩ := hex
  have hperm := List.perm_insertionSort
    (fun a b => valve_heuristic info a valve ≤ valve_heuristic info b valve)
    ((ov1.filter (fun p => !p.2)).map (fun p => p.1))
  have hcand : x ∈ sortCands info valve ((ov1.filter (fun p => !p.2)).map (fun p => p.1)) :=
    hperm.mem_iff.mpr (List.mem_map.mpr ⟨(x, false), List.mem_filter.mpr ⟨hx, by simp⟩, rfl⟩)
  rw [hnil] at hcand
  exact absurd hcand (List.not_mem_nil x)

theorem bind_max?_ge {α : Type} (f : α → Option Nat) (l : List α) (c : α) (hc : c ∈ l)
    (hsome : ∀ a ∈ l, (f a).isSome) {y B : Nat} (hy : f c = some y) (hB : B ≤ y) :
    ∃ r, (l.mapM f).bind (fun results => results.max?) = some r ∧ B ≤ r := by
  obtain ⟨rs, hrs, hlen⟩ := mapM_isSome_of_forall f l hsome
  obtain ⟨r0, hr0, hfr0⟩ := mapM_mem_of_some hrs c hc
  have hne : rs ≠ [] := fun h => by subst h; exact absurd hr0 (List.not_mem_nil _)
  obtain ⟨r, hr⟩ := Option.isSome_iff_exists.mp (max?_isSome_of_ne_nil hne)
  have hmax := List.max?_eq_some_iff'.mp hr
  refine ⟨r, ?_, ?_⟩
  · rw [hrs]
    exact hr
  · have hyr : y = r0 := Option.some_inj.mp ((hy.symm.trans hfr0))
    exact le_trans hB (hyr ▸ hmax.2 r0 hr0)

theorem fmpr_rec_ge (info : VolcanoInfo) : ∀ (n : Nat) (ov : List (Nat × Bool))
    (valve time fr fv tl : Nat),
    SearchBounds info ov valve time fr fv tl →
    (0, false) ∉ ov → (valve, false) ∈ ov → valve ≠ 0 → time + 1 ≤ tl →
    countFalse ov + 2 ≤ n →
    ∃ r, fmpr_rec info n ov valve time fr fv tl = some r ∧ fv + fr * (tl - time) ≤ r := by
  intro n
  induction n with
  | zero => intro ov valve time fr fv tl _ _ _ _ _ hfuel; omega
  | succ m ih =>
    intro ov valve time fr fv tl hSB h0 hvf hv htime hfuel
    rw [fmpr_step_act info m ov valve time fr fv tl hSB hv htime]
    by_cases ht1 : time + 1 = tl
    · rw [if_pos ht1]
      refine ⟨fv + fr, rfl, ?_⟩
      have h1 : tl - time = 1 := by omega
      rw [h1, Nat.mul_one]
    rw [if_neg ht1]
    by_cases hall : (((hmInsert ov valve true).all (fun p => p.2)) = true)
    · rw [if_pos hall]
      refine ⟨_, rfl, ?_⟩
      have h1 : fr * (tl - time) ≤ (tl - time) * (fr + info.flow_rate valve) := by
        rw [Nat.mul_comm]
        exact Nat.mul_le_mul_left _ (Nat.le_add_right _ _)
      omega
    rw [if_neg hall]
    have hne := @cands_ne_nil info valve (hmInsert ov valve true) hall
    have h0' : (0, false) ∉ hmInsert ov valve true :=
      fun hm => h0 (mem_of_false_mem_hmInsert hm).1
    have hcnt := countFalse_hmInsert_lt hvf
    obtain ⟨c, rest, hcl⟩ : ∃ c rest, sortCands info valve
        (((hmInsert ov valve true).filter (fun p => !p.2)).map (fun p => p.1)) = c :: rest := by
      cases hc2 : sortCands info valve
          (((hmInsert ov valve true).filter (fun p => !p.2)).map (fun p => p.1)) with
      | nil => exact absurd hc2 hne
      | cons c rest => exact ⟨c, rest, rfl⟩
    have hcmem : c ∈ sortCands info valve
        (((hmInsert ov valve true).filter (fun p => !p.2)).map (fun p => p.1)) :=
      hcl ▸ List.mem_cons_self c rest
    have hcf : (c, false) ∈ hmInsert ov valve true := false_mem_of_mem_cands hcmem
    have hc0 : c ≠ 0 := fun h => h0' (h ▸ hcf)
    have hsome : ∀ vid ∈ sortCands info valve
        (((hmInsert ov valve true).filter (fun p => !p.2)).map (fun p => p.1)),
        (if tl ≤ time + 1 + info.distance valve vid
          then some ((fv + fr) + (fr + info.flow_rate valve) * (tl - time))
          else fmpr_rec info m (hmInsert ov valve true) vid
            (time + 1 + info.distance valve vid) (fr + info.flow_rate valve)
            ((fv + fr) + (fr + info.flow_rate valve) * info.distance valve vid)
            tl).isSome := by
      intro vid hvid
      by_cases hto : tl ≤ time + 1 + info.distance valve vid
      · rw [if_pos hto]; rfl
      · rw [if_neg hto]
        have hvidf : (vid, false) ∈ hmInsert ov valve true := false_mem_of_mem_cands hvid
        have hvid0 : vid ≠ 0 := fun h => h0' (h ▸ hvidf)
        exact fmpr_rec_isSome info m _ vid _ _ _ tl h0' (fun _ => hvidf)
          (by rw [if_neg hvid0]; omega)
    by_cases hto : tl ≤ time + 1 + info.distance valve c
    · refine bind_max?_ge _ _ c hcmem hsome (by rw [if_pos hto]) ?_
      have h1 : fr * (tl - time) ≤ (fr + info.flow_rate valve) * (tl - time) :=
        Nat.mul_le_mul_right _ (Nat.le_add_right _ _)
      omega
    · have hSB2 := SearchBounds_step_act hSB hvf hcf (by omega)
      obtain ⟨rc, hrc, hge⟩ := ih (hmInsert ov valve true) c
        (time + 1 + info.distance valve c) (fr + info.flow_rate valve)
        ((fv + fr) + (fr + info.flow_rate valve) * info.distance valve c) tl
        hSB2 h0' hcf hc0 (by omega) (by omega)
      refine bind_max?_ge _ _ c hcmem hsome (by rw [if_neg hto]; exact hrc) ?_
      have hdist : (fr + info.flow_rate valve) * info.distance valve c +
          (fr + info.flow_rate valve) * (tl - (time + 1 + info.distance valve c)) =
          (fr + info.flow_rate valve) * (tl - time - 1) := by
        rw [← Nat.left_distrib]
        congr 1
        omega
      have hfr1 : fr * (tl - time - 1) ≤ (fr + info.flow_rate valve) * (tl - time - 1) :=
        Nat.mul_le_mul_right _ (Nat.le_add_right _ _)
      have hsplit : fr * (tl - time) = fr * (tl - time - 1) + fr := by
        have h2 : tl - time = (tl - time - 1) + 1 := by omega
        calc fr * (tl - time) = fr * ((tl - time - 1) + 1) := by rw [← h2]
          _ = fr * (tl - time - 1) + fr := Nat.mul_succ _ _
      omega

theorem fmpr_rec_mono (info : VolcanoInfo) : ∀ (n : Nat) (ov : List (Nat × Bool))
    (valve time fr fv t1 t2 : Nat),
    SearchBounds info ov valve time fr fv t2 → t1 ≤ t2 →
    (0, false) ∉ ov → (valve ≠ 0 → (valve, false) ∈ ov) →
    (if valve = 0 then time ≤ t1 else time + 1 ≤ t1) →
    countFalse ov + (if valve = 0 then 3 else 2) ≤ n →
    ∃ r1 r2, fmpr_rec info n ov valve time fr fv t1 = some r1 ∧
      fmpr_rec info n ov valve time fr fv t2 = some r2 ∧ r1 ≤ r2 := by
  intro n
  induction n with
  | zero => intro ov valve time fr fv t1 t2 _ _ _ _ _ hfuel; split_ifs at hfuel <;> omega
  | succ m ih =>
    intro ov valve time fr fv t1 t2 hSB h12 h0 hval htime hfuel
    by_cases heq : t1 = t2
    · subst heq
      obtain ⟨r, hr⟩ := Option.isSome_iff_exists.mp
        (fmpr_rec_isSome info (m + 1) ov valve time fr fv t1 h0 hval hfuel)
      exact ⟨r, r, hr, hr, Nat.le_refl r⟩
    have hlt : t1 < t2 := by omega
    by_cases hv : valve = 0
    · subst hv
      rw [if_pos rfl] at htime hfuel
      have hSB1 := SearchBounds_mono_tl hSB h12
      rw [fmpr_step_start info m ov time fr fv t1 hSB1 htime]
      rw [fmpr_step_start info m ov time fr fv t2 hSB (by omega)]
      by_cases hall : ((ov.all (fun p => p.2)) = true)
      · rw [if_pos hall, if_pos hall]
        refine ⟨_, _, rfl, rfl, ?_⟩
        have := Nat.mul_le_mul_right fr (show t1 - time + 1 ≤ t2 - time + 1 by omega)
        omega
      rw [if_neg hall, if_neg hall]
      refine mapM_max_le _ ?_ (cands_ne_nil hall)
      intro vid hvid
      have hvidf : (vid, false) ∈ ov := false_mem_of_mem_cands hvid
      have hvid0 : vid ≠ 0 := fun h => h0 (h ▸ hvidf)
      by_cases hp2 : t2 ≤ time + info.distance 0 vid
      · rw [if_pos (show t1 ≤ time + info.distance 0 vid by omega), if_pos hp2]
        refine ⟨_, _, rfl, rfl, ?_⟩
        have := Nat.mul_le_mul_left fr (show t1 - time + 1 ≤ t2 - time + 1 by omega)
        omega
      · by_cases hp1 : t1 ≤ time + info.distance 0 vid
        · rw [if_pos hp1, if_neg hp2]
          have hSB2 := SearchBounds_step_start hSB hvidf (by omega)
          obtain ⟨r, hr, hge⟩ := fmpr_rec_ge info m ov vid (time + info.distance 0 vid)
            fr (fv + fr * info.distance 0 vid) t2 hSB2 h0 hvidf hvid0
            (show time + info.distance 0 vid + 1 ≤ t2 by omega)
            (show countFalse ov + 2 ≤ m by omega)
          refine ⟨_, r, rfl, hr, ?_⟩
          have hdist : fr * info.distance 0 vid +
              fr * (t2 - (time + info.distance 0 vid)) = fr * (t2 - time) := by
            rw [← Nat.left_distrib]
            congr 1
            omega
          have hmono : fr * (t1 - time + 1) ≤ fr * (t2 - time) :=
            Nat.mul_le_mul_left fr (by omega)
          omega
        · rw [if_neg hp1, if_neg hp2]
          have hSB2 := SearchBounds_step_start hSB hvidf (by omega)
          obtain ⟨r1, r2, h1e, h2e, hle⟩ := ih ov vid (time + info.distance 0 vid) fr
            (fv + fr * info.distance 0 vid) t1 t2 hSB2 h12 h0 (fun _ => hvidf)
            (by rw [if_neg hvid0]; omega) (by rw [if_neg hvid0]; omega)
          exact ⟨r1, r2, h1e, h2e, hle⟩
    · rw [if_neg hv] at htime hfuel
      have hvf : (valve, false) ∈ ov := hval hv
      rw [fmpr_step_act info m ov valve time fr fv t1
        (SearchBounds_mono_tl hSB h12) hv htime]
      by_cases hterm1 : time + 1 = t1
      · rw [if_pos hterm1]
        obtain ⟨r2, hr2, hge2⟩ := fmpr_rec_ge info (m + 1) ov valve time fr fv t2
          hSB h0 hvf hv (by omega) (by omega)
        refine ⟨fv + fr, r2, rfl, hr2, ?_⟩
        have hone : fr * 1 ≤ fr * (t2 - time) := Nat.mul_le_mul_left fr (by omega)
        omega
      rw [if_neg hterm1]
      rw [fmpr_step_act info m ov valve time fr fv t2 hSB hv (by omega)]
      rw [if_neg (show ¬ (time + 1 = t2) by omega)]
      by_cases hall : (((hmInsert ov valve true).all (fun p => p.2)) = true)
      · rw [if_pos hall, if_pos hall]
        refine ⟨_, _, rfl, rfl, ?_⟩
        have := Nat.mul_le_mul_right (fr + info.flow_rate valve)
          (show t1 - time ≤ t2 - time by omega)
        omega
      rw [if_neg hall, if_neg hall]
      refine mapM_max_le _ ?_ (cands_ne_nil hall)
      intro vid hvid
      have hvidf1 : (vid, false) ∈ hmInsert ov valve true := false_mem_of_mem_cands hvid
      have h0' : (0, false) ∉ hmInsert ov valve true :=
        fun hm => h0 (mem_of_false_mem_hmInsert hm).1
      have hvid0 : vid ≠ 0 := fun h => h0' (h ▸ hvidf1)
      have hcnt := countFalse_hmInsert_lt hvf
      by_cases hp2 : t2 ≤ time + 1 + info.distance valve vid
      · rw [if_pos (show t1 ≤ time + 1 + info.distance valve vid by omega), if_pos hp2]
        refine ⟨_, _, rfl, rfl, ?_⟩
        have := Nat.mul_le_mul_left (fr + info.flow_rate valve)
          (show t1 - time ≤ t2 - time by omega)
        omega
      · by_cases hp1 : t1 ≤ time + 1 + info.distance valve vid
        · rw [if_pos hp1, if_neg hp2]
          have hSB2 := SearchBounds_step_act hSB hvf hvidf1 (by omega)
          obtain ⟨r, hr, hge⟩ := fmpr_rec_ge info m (hmInsert ov valve true) vid
            (time + 1 + info.distance valve vid) (fr + info.flow_rate valve)
            ((fv + fr) + (fr + info.flow_rate valve) * info.distance valve vid) t2
            hSB2 h0' hvidf1 hvid0 (by omega) (by omega)
          refine ⟨_, r, rfl, hr, ?_⟩
          have hdist : (fr + info.flow_rate valve) * info.distance valve vid +
              (fr + info.flow_rate valve) * (t2 - (time + 1 + info.distance valve vid)) =
              (fr + info.flow_rate valve) * (t2 - time - 1) := by
            rw [← Nat.left_distrib]
            congr 1
            omega
          have hmono : (fr + info.flow_rate valve) * (t1 - time) ≤
              (fr + info.flow_rate valve) * (t2 - time - 1) :=
            Nat.mul_le_mul_left _ (by omega)
          omega
        · rw [if_neg hp1, if_neg hp2]
          have hSB2 := SearchBounds_step_act hSB hvf hvidf1 (by omega)
          exact ih (hmInsert ov valve true) vid (time + 1 + info.distance valve vid)
            (fr + info.flow_rate valve)
            ((fv + fr) + (fr + info.flow_rate valve) * info.distance valve vid) t1 t2
            hSB2 h12 h0' (fun _ => hvidf1)
            (by rw [if_neg hvid0]; omega) (by rw [if_neg hvid0]; omega)

theorem zero_true_mem_initialValves (vs : List Nat) : ((0 : Nat), true) ∈ initialValves vs := by
  unfold initialValves hmInsert
  by_cases hany : ((vs.map (fun v => (v, false))).any (fun p => p.1 == 0)) = true
  · rw [if_pos hany]
    obtain ⟨p, hp, hp0⟩ := List.any_eq_true.mp hany
    have hp0' : p.1 = 0 := by simpa using hp0
    exact List.mem_map.mpr ⟨p, hp, by rw [if_pos hp0']⟩
  · rw [if_neg hany]
    exact List.mem_append.mpr (Or.inr (List.mem_singleton.mpr rfl))

theorem countFalse_initialValves_le (vs : List Nat) :
    countFalse (initialValves vs) ≤ vs.length := by
  have hmaplen : countFalse (vs.map (fun v => (v, false))) ≤ vs.length := by
    rw [countFalse, List.countP_map]
    exact List.countP_le_length _
  unfold initialValves hmInsert
  by_cases hany : ((vs.map (fun v => (v, false))).any (fun p => p.1 == 0)) = true
  · rw [if_pos hany]
    calc countFalse ((vs.map (fun v => (v, false))).map
          (fun p => if p.1 = 0 then (0, true) else p))
        ≤ countFalse (vs.map (fun v => (v, false))) := by
          rw [countFalse, List.countP_map, countFalse]
          exact countP_flip_le 0 _
      _ ≤ vs.length := hmaplen
  · rw [if_neg hany]
    rw [countFalse, List.countP_append]
    have : List.countP (fun p => !p.2) [((0 : Nat), true)] = 0 := rfl
    rw [this, Nat.add_zero]
    exact hmaplen

/-- C10: for a fixed volcano info whose rates and pairwise distances over the
valve set (plus the start valve) are finite and small, and a fixed valve set,
the single-agent search value from the standard initial state (start valve 0,
time 1, zero rate and volume) is monotonically non-decreasing in the time
budget. -/
theorem C10_budget_monotone (info : VolcanoInfo) (s : List Nat) (T1 T2 : Nat)
    (h12 : T1 ≤ T2) (hT1 : 1 ≤ T1) (hT2 : T2 ≤ 2 ^ 16)
    (hrates : ∀ v, (v ∈ s ∨ v = 0) → info.flow_rate v ≤ 2 ^ 16)
    (hdists : ∀ a b, (a ∈ s ∨ a = 0) → (b ∈ s ∨ b = 0) → info.distance a b ≤ 2 ^ 16)
    (hlen : s.length ≤ 2 ^ 10) :
    (fmpr_rec info (searchFuel (initialValves s)) (initialValves s) 0 1 0 0 T1).getD 0 ≤
      (fmpr_rec info (searchFuel (initialValves s)) (initialValves s) 0 1 0 0 T2).getD 0 := by
  have hc10 : countFalse (initialValves s) ≤ 2 ^ 10 :=
    le_trans (countFalse_initialValves_le s) hlen
  have hSB : SearchBounds info (initialValves s) 0 1 0 0 T2 := by
    refine ⟨hT2, ?_, ?_, ?_, ?_, ?_⟩
    · intro k hk
      exact hrates k (initialValves_keys hk)
    · intro a ha b hb
      exact hdists a b (initialValves_keys ha) (initialValves_keys hb)
    · exact List.mem_map.mpr ⟨(0, true), zero_true_mem_initialValves s, rfl⟩
    · have h3 := Nat.mul_le_mul_left (2 ^ 16) hc10
      have h4 : (2 : Nat) ^ 16 * 2 ^ 10 ≤ 2 ^ 32 := by norm_num
      omega
    · have h3 := Nat.mul_le_mul_left (2 ^ 16) hc10
      have h4 : (2 : Nat) ^ 16 * 2 ^ 10 ≤ 2 ^ 26 := by norm_num
      have h5 : T2 + 2 - 1 ≤ 2 ^ 16 + 1 := by omega
      have h6 := Nat.mul_le_mul (show 0 + 2 ^ 16 * countFalse (initialValves s) ≤ 2 ^ 26 by
        omega) h5
      have h7 : (2 : Nat) ^ 26 * (2 ^ 16 + 1) ≤ 2 ^ 63 := by norm_num
      omega
  obtain ⟨r1, r2, h1, h2, hle⟩ := fmpr_rec_mono info (searchFuel (initialValves s))
    (initialValves s) 0 1 0 0 T1 T2 hSB h12 (not_false_zero_initialValves s)
    (fun h => absurd rfl h) (by rw [if_pos rfl]; omega)
    (by rw [if_pos rfl]; exact Nat.le_refl _)
  rw [h1, h2]
  exact hle

/-- Witness for C10: on a concrete two-valve volcano with unit distances, the
search value with budget 3 is at most the value with budget 5. -/
theorem C10_budget_monotone_witness :
    (fmpr_rec exInfoHeur (searchFuel (initialValves [1])) (initialValves [1]) 0 1 0 0 3).getD 0 ≤
      (fmpr_rec exInfoHeur (searchFuel (initialValves [1])) (initialValves [1]) 0 1 0 0 5).getD 0 :=
  C10_budget_monotone exInfoHeur [1] 3 5 (by decide) (by decide) (by decide)
    (fun v hv => by
      rcases hv with h | h
      · simp at h
        subst h
        decide
      · subst h
        decide)
    (fun a b _ _ => by
      show (1 : Nat) ≤ 2 ^ 16
      norm_num)
    (by decide)

theorem walkWeight_nil (D : Mat) (i j : Nat) :
    walkWeight D i [] j = if D i j = U64_MAX then none else some (D i j) := rfl

theorem walkWeight_cons (D : Mat) (i v j : Nat) (l : List Nat) :
    walkWeight D i (v :: l) j = if D i v = U64_MAX then none
      else (walkWeight D v l j).map (fun w => D i v + w) := rfl

theorem walkWeight_append_iff (D : Mat) : ∀ (l1 l2 : List Nat) (v i j w : Nat),
    walkWeight D i (l1 ++ v :: l2) j = some w ↔
      ∃ w1 w2, walkWeight D i l1 v = some w1 ∧ walkWeight D v l2 j = some w2 ∧
        w = w1 + w2 := by
  intro l1
  induction l1 with
  | nil =>
    intro l2 v i j w
    simp only [List.nil_append, walkWeight_cons, walkWeight_nil]
    by_cases hM : D i v = U64_MAX
    · simp [hM]
    · simp [hM, Option.map_eq_some']
      constructor
      · rintro ⟨a, ha, haw⟩
        exact ⟨a, ha, haw.symm⟩
      · rintro ⟨w2, hw2, hw⟩
        exact ⟨w2, hw2, hw.symm⟩
  | cons x l1 ih =>
    intro l2 v i j w
    simp only [List.cons_append, walkWeight_cons, walkWeight_nil]
    by_cases hM : D i x = U64_MAX
    · simp [hM]
    · simp only [hM, if_false, Option.map_eq_some']
      constructor
      · rintro ⟨a, ha, haw⟩
        obtain ⟨w1, w2, h1, h2, h12⟩ := (ih l2 v x j a).mp ha
        exact ⟨D i x + w1, w2, ⟨w1, h1, rfl⟩, h2, by omega⟩
      · rintro ⟨w1, w2, h1, h2, h12⟩
        obtain ⟨a1, ha1, ha1e⟩ := h1
        exact ⟨a1 + w2, (ih l2 v x j (a1 + w2)).mpr ⟨a1, w2, ha1, h2, rfl⟩, by omega⟩

theorem walkWeight_lt_bufsize {D0 : Mat}
    (Hsup : ∀ i j, D0 i j ≠ U64_MAX →
      i < VALVE_BUF_SIZE ∧ j < VALVE_BUF_SIZE ∧ D0 i j ≤ 2 ^ 32) :
    ∀ (l : List Nat) (i j w : Nat), walkWeight D0 i l j = some w →
      i < VALVE_BUF_SIZE ∧ j < VALVE_BUF_SIZE ∧ ∀ v ∈ l, v < VALVE_BUF_SIZE := by
  intro l
  induction l with
  | nil =>
    intro i j w hw
    rw [walkWeight_nil] at hw
    by_cases hM : D0 i j = U64_MAX
    · rw [if_pos hM] at hw; exact absurd hw (by simp)
    · exact ⟨(Hsup i j hM).1, (Hsup i j hM).2.1, by simp⟩
  | cons v l ih =>
    intro i j w hw
    rw [walkWeight_cons] at hw
    by_cases hM : D0 i v = U64_MAX
    · rw [if_pos hM] at hw; exact absurd hw (by simp)
    · rw [if_neg hM] at hw
      obtain ⟨a, ha, _⟩ := Option.map_eq_some'.mp hw
      obtain ⟨hv, hj, hl⟩ := ih v j a ha
      refine ⟨(Hsup i v hM).1, hj, ?_⟩
      intro x hx
      rcases List.mem_cons.mp hx with h1 | h1
      · exact h1 ▸ hv
      · exact hl x h1

theorem walkWeight_nodup_le {D0 : Mat}
    (Hsup : ∀ i j, D0 i j ≠ U64_MAX →
      i < VALVE_BUF_SIZE ∧ j < VALVE_BUF_SIZE ∧ D0 i j ≤ 2 ^ 32) :
    ∀ (l : List Nat) (i j w : Nat), walkWeight D0 i l j = some w →
      w ≤ (l.length + 1) * 2 ^ 32 := by
  intro l
  induction l with
  | nil =>
    intro i j w hw
    rw [walkWeight_nil] at hw
    by_cases hM : D0 i j = U64_MAX
    · rw [if_pos hM] at hw; exact absurd hw (by simp)
    · rw [if_neg hM] at hw
      have := (Hsup i j hM).2.2
      simp at hw
      omega
  | cons v l ih =>
    intro i j w hw
    rw [walkWeight_cons] at hw
    by_cases hM : D0 i v = U64_MAX
    · rw [if_pos hM] at hw; exact absurd hw (by simp)
    · rw [if_neg hM] at hw
      obtain ⟨a, ha, hae⟩ := Option.map_eq_some'.mp hw
      have h1 := ih v j a ha
      have h2 := (Hsup i v hM).2.2
      have h3 : (v :: l).length = l.length + 1 := rfl
      rw [h3, ← hae]
      have : (l.length + 1 + 1) * 2 ^ 32 = 2 ^ 32 + (l.length + 1) * 2 ^ 32 := by ring
      omega

theorem dup_split : ∀ {l : List Nat}, ¬ l.Nodup →
    ∃ (v : Nat) (l1 l2 l3 : List Nat), l = l1 ++ v :: (l2 ++ v :: l3) := by
  intro l
  induction l with
  | nil => intro h; exact absurd List.nodup_nil h
  | cons x xs ih =>
    intro h
    by_cases hx : x ∈ xs
    · obtain ⟨s, t, hst⟩ := List.append_of_mem hx
      exact ⟨x, [], s, t, by rw [hst]; rfl⟩
    · have hxs : ¬ xs.Nodup := fun hnd => h (List.nodup_cons.mpr ⟨hx, hnd⟩)
      obtain ⟨v, l1, l2, l3, hsplit⟩ := ih hxs
      exact ⟨v, x :: l1, l2, l3, by rw [hsplit]; rfl⟩

theorem last_mem_split : ∀ {l : List Nat} {a : Nat}, a ∈ l →
    ∃ l1 l2, l = l1 ++ a :: l2 ∧ a ∉ l2 := by
  intro l
  induction l with
  | nil => intro a h; simp at h
  | cons x xs ih =>
    intro a h
    by_cases hx : a ∈ xs
    · obtain ⟨l1, l2, hsplit, hnm⟩ := ih hx
      exact ⟨x :: l1, l2, by rw [hsplit]; rfl, hnm⟩
    · have hax : a = x := by
        rcases List.mem_cons.mp h with h1 | h1
        · exact h1
        · exact absurd h1 hx
      exact ⟨[], xs, by rw [hax]; rfl, hx⟩

theorem walk_simple (D0 : Mat) : ∀ (n : Nat) (l : List Nat) (i j w : Nat), l.length ≤ n →
    walkWeight D0 i l j = some w →
    ∃ l' w', l'.Nodup ∧ (∀ v ∈ l', v ∈ l) ∧ walkWeight D0 i l' j = some w' ∧ w' ≤ w := by
  intro n
  induction n with
  | zero =>
    intro l i j w hlen hw
    have : l = [] := List.length_eq_zero.mp (by omega)
    subst this
    exact ⟨[], w, List.nodup_nil, by simp, hw, Nat.le_refl w⟩
  | succ m ih =>
    intro l i j w hlen hw
    by_cases hnd : l.Nodup
    · exact ⟨l, w, hnd, fun v hv => hv, hw, Nat.le_refl w⟩
    obtain ⟨v, l1, l2, l3, hsplit⟩ := dup_split hnd
    subst hsplit
    obtain ⟨w1, wr, hw1, hwr, hsum⟩ := (walkWeight_append_iff D0 l1 (l2 ++ v :: l3) v i j w).mp hw
    obtain ⟨wa, wb, hwa, hwb, hsum2⟩ := (walkWeight_append_iff D0 l2 l3 v v j wr).mp hwr
    have hnew : walkWeight D0 i (l1 ++ v :: l3) j = some (w1 + wb) :=
      (walkWeight_append_iff D0 l1 l3 v i j (w1 + wb)).mpr ⟨w1, wb, hw1, hwb, rfl⟩
    have hlen2 : (l1 ++ v :: l3).length ≤ m := by
      simp only [List.length_append, List.length_cons] at hlen ⊢
      omega
    obtain ⟨l', w', hnd', hsub', hw', hle'⟩ := ih (l1 ++ v :: l3) i j (w1 + wb) hlen2 hnew
    refine ⟨l', w', hnd', ?_, hw', by omega⟩
    intro x hx
    have := hsub' x hx
    simp only [List.mem_append, List.mem_cons] at this ⊢
    tauto

theorem nodup_length_le {l : List Nat} (hnd : l.Nodup)
    (hmem : ∀ v ∈ l, v < VALVE_BUF_SIZE) : l.length ≤ VALVE_BUF_SIZE := by
  have hsub : l ⊆ List.range VALVE_BUF_SIZE := fun v hv => List.mem_range.mpr (hmem v hv)
  have hsp : l.Subperm (List.range VALVE_BUF_SIZE) := List.subperm_of_subset hnd hsub
  have := hsp.length_le
  rwa [List.length_range] at this

theorem fwRow_aux (k i dik : Nat) (hik : i ≠ k) (D : Mat) :
    ∀ (n a b : Nat),
      ((List.range n).foldl (fwRowStep k i dik) D) a b =
      (if a = i ∧ b < n ∧ D k b ≠ U64_MAX ∧ add64 dik (D k b) < D i b
      then add64 dik (D k b) else D a b) := by
  intro n
  induction n with
  | zero =>
    intro a b
    rw [List.range_zero, List.foldl_nil, if_neg]
    rintro ⟨_, hb, _⟩
    exact Nat.not_lt_zero b hb
  | succ n ih =>
    intro a b
    rw [List.range_succ, List.foldl_append, List.foldl_cons, List.foldl_nil]
    have hFkn : ((List.range n).foldl (fwRowStep k i dik) D) k n = D k n := by
      rw [ih]
      exact if_neg (fun hc => hik hc.1.symm)
    have hFin : ((List.range n).foldl (fwRowStep k i dik) D) i n = D i n := by
      rw [ih]
      exact if_neg (fun hc => Nat.lt_irrefl n hc.2.1)
    rw [fwRowStep, hFkn, hFin]
    by_cases h1 : D k n = U64_MAX
    · rw [if_pos h1, ih]
      by_cases hC : a = i ∧ b < n ∧ D k b ≠ U64_MAX ∧ add64 dik (D k b) < D i b
      · rw [if_pos hC, if_pos (⟨hC.1, by omega, hC.2.2.1, hC.2.2.2⟩ :
          a = i ∧ b < n + 1 ∧ D k b ≠ U64_MAX ∧ add64 dik (D k b) < D i b)]
      · rw [if_neg hC, if_neg]
        rintro ⟨ha, hb, hne, hlt⟩
        have hbn : b ≠ n := fun he => hne (he ▸ h1)
        exact hC ⟨ha, by omega, hne, hlt⟩
    · rw [if_neg h1]
      by_cases h2 : add64 dik (D k n) < D i n
      · rw [if_pos h2]
        simp only [mset]
        by_cases hab : a = i ∧ b = n
        · rw [if_pos hab, if_pos (show a = i ∧ b < n + 1 ∧ D k b ≠ U64_MAX ∧
            add64 dik (D k b) < D i b from ⟨hab.1, by omega, hab.2 ▸ h1, hab.2 ▸ h2⟩)]
          rw [hab.2]
        · rw [if_neg hab, ih]
          by_cases hC : a = i ∧ b < n ∧ D k b ≠ U64_MAX ∧ add64 dik (D k b) < D i b
          · rw [if_pos hC, if_pos (⟨hC.1, by omega, hC.2.2.1, hC.2.2.2⟩ :
              a = i ∧ b < n + 1 ∧ D k b ≠ U64_MAX ∧ add64 dik (D k b) < D i b)]
          · rw [if_neg hC, if_neg]
            rintro ⟨ha, hb, hne, hlt⟩
            have hbn : b ≠ n := fun he => hab ⟨ha, he⟩
            exact hC ⟨ha, by omega, hne, hlt⟩
      · rw [if_neg h2, ih]
        by_cases hC : a = i ∧ b < n ∧ D k b ≠ U64_MAX ∧ add64 dik (D k b) < D i b
        · rw [if_pos hC, if_pos (⟨hC.1, by omega, hC.2.2.1, hC.2.2.2⟩ :
            a = i ∧ b < n + 1 ∧ D k b ≠ U64_MAX ∧ add64 dik (D k b) < D i b)]
        · rw [if_neg hC, if_neg]
          rintro ⟨ha, hb, hne, hlt⟩
          have hbn : b ≠ n := by
            intro he
            subst he
            subst ha
            exact h2 hlt
          exact hC ⟨ha, by omega, hne, hlt⟩

theorem fwRow_self_id (k dkk : Nat) (hdkk : dkk ≤ 2 ^ 43) (D : Mat)
    (hrow : ∀ b, D k b = U64_MAX ∨ D k b ≤ 2 ^ 43) :
    ∀ n, (List.range n).foldl (fwRowStep k k dkk) D = D := by
  have hW : (2 : Nat) ^ 43 + 2 ^ 43 < W64 := by norm_num [W64]
  intro n
  induction n with
  | zero => rfl
  | succ n ih =>
    rw [List.range_succ, List.foldl_append, ih, List.foldl_cons, List.foldl_nil, fwRowStep]
    by_cases h1 : D k n = U64_MAX
    · rw [if_pos h1]
    · rw [if_neg h1, if_neg]
      intro hlt
      have hb : D k n ≤ 2 ^ 43 := (hrow n).resolve_left h1
      rw [add64_eq_of_lt (by omega)] at hlt
      omega

theorem fwMid_self (k : Nat) (D : Mat)
    (hrow : ∀ b, D k b = U64_MAX ∨ D k b ≤ 2 ^ 43) : fwMid k D k = D := by
  rw [fwMid]
  by_cases h1 : D k k = U64_MAX
  · rw [if_pos h1]
  · rw [if_neg h1, fwRow]
    exact fwRow_self_id k (D k k) ((hrow k).resolve_left h1) D hrow VALVE_BUF_SIZE

theorem fwOuter_aux (k : Nat) (D : Mat)
    (hrow : ∀ b, D k b = U64_MAX ∨ D k b ≤ 2 ^ 43) :
    ∀ (n a b : Nat),
      ((List.range n).foldl (fwMid k) D) a b =
      (if a < n ∧ D a k ≠ U64_MAX ∧ b < VALVE_BUF_SIZE ∧ D k b ≠ U64_MAX ∧
        add64 (D a k) (D k b) < D a b
      then add64 (D a k) (D k b) else D a b) := by
  have hW : (2 : Nat) ^ 43 + 2 ^ 43 < W64 := by norm_num [W64]
  intro n
  induction n with
  | zero =>
    intro a b
    rw [List.range_zero, List.foldl_nil, if_neg]
    rintro ⟨ha, _⟩
    exact Nat.not_lt_zero a ha
  | succ n ih =>
    have hGk : ∀ b2, ((List.range n).foldl (fwMid k) D) k b2 = D k b2 := by
      intro b2
      rw [ih]
      refine if_neg (fun hc => ?_)
      have hb1 : D k k ≤ 2 ^ 43 := (hrow k).resolve_left hc.2.1
      have hb2 : D k b2 ≤ 2 ^ 43 := (hrow b2).resolve_left hc.2.2.2.1
      have hlt := hc.2.2.2.2
      rw [add64_eq_of_lt (by omega)] at hlt
      omega
    have hkfalse : ∀ b2, ¬ (D k k ≠ U64_MAX ∧ b2 < VALVE_BUF_SIZE ∧ D k b2 ≠ U64_MAX ∧
        add64 (D k k) (D k b2) < D k b2) := by
      rintro b2 ⟨hc1, _, hc3, hlt⟩
      have hb1 : D k k ≤ 2 ^ 43 := (hrow k).resolve_left hc1
      have hb2 : D k b2 ≤ 2 ^ 43 := (hrow b2).resolve_left hc3
      rw [add64_eq_of_lt (by omega)] at hlt
      omega
    intro a b
    rw [List.range_succ, List.foldl_append, List.foldl_cons, List.foldl_nil]
    by_cases hnk : n = k
    · subst hnk
      rw [fwMid_self n _ (fun b2 => by rw [hGk b2]; exact hrow b2), ih]
      by_cases hC : a < n ∧ D a n ≠ U64_MAX ∧ b < VALVE_BUF_SIZE ∧ D n b ≠ U64_MAX ∧
          add64 (D a n) (D n b) < D a b
      · rw [if_pos hC, if_pos (⟨by omega, hC.2⟩ : a < n + 1 ∧ D a n ≠ U64_MAX ∧
          b < VALVE_BUF_SIZE ∧ D n b ≠ U64_MAX ∧ add64 (D a n) (D n b) < D a b)]
      · rw [if_neg hC, if_neg]
        rintro ⟨ha, hrest⟩
        have han : a ≠ n := fun he => hkfalse b (he ▸ hrest)
        exact hC ⟨by omega, hrest⟩
    · have hGnk : ((List.range n).foldl (fwMid k) D) n k = D n k := by
        rw [ih]
        exact if_neg (fun hc => Nat.lt_irrefl n hc.1)
      have hGnb : ∀ b2, ((List.range n).foldl (fwMid k) D) n b2 = D n b2 := by
        intro b2
        rw [ih]
        exact if_neg (fun hc => Nat.lt_irrefl n hc.1)
      rw [fwMid, hGnk]
      by_cases h1 : D n k = U64_MAX
      · rw [if_pos h1, ih]
        by_cases hC : a < n ∧ D a k ≠ U64_MAX ∧ b < VALVE_BUF_SIZE ∧ D k b ≠ U64_MAX ∧
            add64 (D a k) (D k b) < D a b
        · rw [if_pos hC, if_pos (⟨by omega, hC.2⟩ : a < n + 1 ∧ D a k ≠ U64_MAX ∧
            b < VALVE_BUF_SIZE ∧ D k b ≠ U64_MAX ∧ add64 (D a k) (D k b) < D a b)]
        · rw [if_neg hC, if_neg]
          rintro ⟨ha, hne, hrest⟩
          have han : a ≠ n := fun he => hne (he ▸ h1)
          exact hC ⟨by omega, hne, hrest⟩
      · rw [if_neg h1, fwRow, fwRow_aux k n (D n k) hnk _ VALVE_BUF_SIZE a b, hGk b, hGnb b]
        by_cases han : a = n
        · subst han
          by_cases hC : b < VALVE_BUF_SIZE ∧ D k b ≠ U64_MAX ∧ add64 (D a k) (D k b) < D a b
          · rw [if_pos ⟨rfl, hC⟩, if_pos (⟨by omega, h1, hC⟩ : a < a + 1 ∧ D a k ≠ U64_MAX ∧
              b < VALVE_BUF_SIZE ∧ D k b ≠ U64_MAX ∧ add64 (D a k) (D k b) < D a b)]
          · rw [if_neg (fun hc => hC hc.2), if_neg (fun hc => hC hc.2.2), hGnb b]
        · rw [if_neg (fun hc => han hc.1), ih]
          by_cases hC : a < n ∧ D a k ≠ U64_MAX ∧ b < VALVE_BUF_SIZE ∧ D k b ≠ U64_MAX ∧
              add64 (D a k) (D k b) < D a b
          · rw [if_pos hC, if_pos (⟨by omega, hC.2⟩ : a < n + 1 ∧ D a k ≠ U64_MAX ∧
              b < VALVE_BUF_SIZE ∧ D k b ≠ U64_MAX ∧ add64 (D a k) (D k b) < D a b)]
          · rw [if_neg hC, if_neg]
            rintro ⟨ha, hrest⟩
            exact hC ⟨by omega, hrest⟩

theorem ReachableBelow_mono {D0 : Mat} {k i j : Nat} (h : ReachableBelow D0 k i j) :
    ReachableBelow D0 (k + 1) i j := by
  obtain ⟨l, w, hlk, hw⟩ := h
  exact ⟨l, w, fun v hv => Nat.lt_succ_of_lt (hlk v hv), hw⟩

theorem FwInv_base (D0 : Mat) : FwInv D0 0 D0 := by
  intro i j
  constructor
  · rintro ⟨l, w, hlk, hw⟩
    have hl : l = [] := by
      cases l with
      | nil => rfl
      | cons v l => exact absurd (hlk v (List.mem_cons_self v l)) (Nat.not_lt_zero v)
    subst hl
    rw [walkWeight_nil] at hw
    by_cases hM : D0 i j = U64_MAX
    · rw [if_pos hM] at hw
      exact absurd hw (by simp)
    · rw [if_neg hM] at hw
      constructor
      · exact ⟨[], by simp, by rw [walkWeight_nil, if_neg hM]⟩
      · intro l2 w2 hlk2 hw2
        have hl2 : l2 = [] := by
          cases l2 with
          | nil => rfl
          | cons v l2 => exact absurd (hlk2 v (List.mem_cons_self v l2)) (Nat.not_lt_zero v)
        subst hl2
        rw [walkWeight_nil, if_neg hM] at hw2
        exact Nat.le_of_eq (Option.some_inj.mp hw2)
  · intro hnr
    by_contra hM
    exact hnr ⟨[], D0 i j, by simp, by rw [walkWeight_nil, if_neg hM]⟩

theorem FwInv_reach_bound {D0 : Mat}
    (Hsup : ∀ i j, D0 i j ≠ U64_MAX →
      i < VALVE_BUF_SIZE ∧ j < VALVE_BUF_SIZE ∧ D0 i j ≤ 2 ^ 32)
    {k : Nat} {D : Mat} (hInv : FwInv D0 k D) {i b : Nat}
    (hr : ReachableBelow D0 k i b) : D i b ≤ 2 ^ 43 := by
  obtain ⟨⟨l, hlk, hlw⟩, hmin⟩ := (hInv i b).1 hr
  obtain ⟨l', w', hnd, hsub, hw', hle⟩ :=
    walk_simple D0 l.length l i b (D i b) (Nat.le_refl _) hlw
  have hDle : D i b ≤ w' := hmin l' w' (fun v hv => hlk v (hsub v hv)) hw'
  have hmem : ∀ v ∈ l', v < VALVE_BUF_SIZE :=
    fun v hv => (walkWeight_lt_bufsize Hsup l' i b w' hw').2.2 v hv
  have hlen : l'.length ≤ VALVE_BUF_SIZE := nodup_length_le hnd hmem
  have hwb : w' ≤ (l'.length + 1) * 2 ^ 32 := walkWeight_nodup_le Hsup l' i b w' hw'
  have h1 : (l'.length + 1) * 2 ^ 32 ≤ (VALVE_BUF_SIZE + 1) * 2 ^ 32 :=
    Nat.mul_le_mul_right _ (by omega)
  have h2 : (VALVE_BUF_SIZE + 1) * 2 ^ 32 ≤ 2 ^ 43 := by
    norm_num [VALVE_BUF_SIZE, Nat.shiftLeft_eq]
  omega

theorem FwInv_entry_bound {D0 : Mat}
    (Hsup : ∀ i j, D0 i j ≠ U64_MAX →
      i < VALVE_BUF_SIZE ∧ j < VALVE_BUF_SIZE ∧ D0 i j ≤ 2 ^ 32)
    {k : Nat} {D : Mat} (hInv : FwInv D0 k D) (i b : Nat) :
    D i b = U64_MAX ∨ D i b ≤ 2 ^ 43 := by
  by_cases hr : ReachableBelow D0 k i b
  · exact Or.inr (FwInv_reach_bound Hsup hInv hr)
  · exact Or.inl ((hInv i b).2 hr)

theorem FwInv_not_max {D0 : Mat} {k : Nat} {D : Mat} (hInv : FwInv D0 k D)
    {i b : Nat} (hne : D i b ≠ U64_MAX) : ReachableBelow D0 k i b := by
  by_contra hr
  exact hne ((hInv i b).2 hr)

theorem first_mem_split : ∀ {l : List Nat} {a : Nat}, a ∈ l →
    ∃ l1 l2, l = l1 ++ a :: l2 ∧ a ∉ l1 := by
  intro l
  induction l with
  | nil => intro a h; simp at h
  | cons x xs ih =>
    intro a h
    by_cases hax : a = x
    · exact ⟨[], xs, by rw [hax]; rfl, by simp⟩
    · have hx : a ∈ xs := by
        rcases List.mem_cons.mp h with h1 | h1
        · exact absurd h1 hax
        · exact h1
      obtain ⟨l1, l2, hsplit, hnm⟩ := ih hx
      refine ⟨x :: l1, l2, by rw [hsplit]; rfl, ?_⟩
      intro hmem
      rcases List.mem_cons.mp hmem with h1 | h1
      · exact hax h1
      · exact hnm h1

theorem fwOuter_le {D0 : Mat}
    (Hsup : ∀ i j, D0 i j ≠ U64_MAX →
      i < VALVE_BUF_SIZE ∧ j < VALVE_BUF_SIZE ∧ D0 i j ≤ 2 ^ 32)
    (k : Nat) {D : Mat} (hInv : FwInv D0 k D) :
    ∀ (n : Nat) (l : List Nat) (i j w : Nat), l.length ≤ n → (∀ v ∈ l, v < k + 1) →
      walkWeight D0 i l j = some w → fwOuter D k i j ≤ w := by
  have hW : (2 : Nat) ^ 43 + 2 ^ 43 < W64 := by norm_num [W64]
  have hrow : ∀ b, D k b = U64_MAX ∨ D k b ≤ 2 ^ 43 :=
    fun b => FwInv_entry_bound Hsup hInv k b
  have happ : ∀ a b, fwOuter D k a b =
      (if a < VALVE_BUF_SIZE ∧ D a k ≠ U64_MAX ∧ b < VALVE_BUF_SIZE ∧ D k b ≠ U64_MAX ∧
        add64 (D a k) (D k b) < D a b
      then add64 (D a k) (D k b) else D a b) :=
    fun a b => fwOuter_aux k D hrow VALVE_BUF_SIZE a b
  have hE'leD : ∀ a b, fwOuter D k a b ≤ D a b := by
    intro a b
    rw [happ a b]
    by_cases hC : a < VALVE_BUF_SIZE ∧ D a k ≠ U64_MAX ∧ b < VALVE_BUF_SIZE ∧
        D k b ≠ U64_MAX ∧ add64 (D a k) (D k b) < D a b
    · rw [if_pos hC]
      exact Nat.le_of_lt hC.2.2.2.2
    · rw [if_neg hC]
  intro n
  induction n with
  | zero =>
    intro l i j w hlen hlk hw
    have hl : l = [] := List.length_eq_zero.mp (by omega)
    subst hl
    have hre : ReachableBelow D0 k i j := ⟨[], w, by simp, hw⟩
    exact le_trans (hE'leD i j) (((hInv i j).1 hre).2 [] w (by simp) hw)
  | succ m ihm =>
    intro l i j w hlen hlk hw
    by_cases hkl : k ∈ l
    · obtain ⟨l1, l2, hsplit, hknotin1⟩ := first_mem_split hkl
      subst hsplit
      obtain ⟨w1, w2, hw1, hw2, hsum⟩ := (walkWeight_append_iff D0 l1 l2 k i j w).mp hw
      by_cases hkl2 : k ∈ l2
      · obtain ⟨lm, l3, hsplit2, hknotin3⟩ := last_mem_split hkl2
        subst hsplit2
        obtain ⟨wa, wb, hwa, hwb, hsum2⟩ := (walkWeight_append_iff D0 lm l3 k k j w2).mp hw2
        have hnew : walkWeight D0 i (l1 ++ k :: l3) j = some (w1 + wb) :=
          (walkWeight_append_iff D0 l1 l3 k i j _).mpr ⟨w1, wb, hw1, hwb, rfl⟩
        have hlen2 : (l1 ++ k :: l3).length ≤ m := by
          simp only [List.length_append, List.length_cons] at hlen ⊢
          omega
        have hlk2 : ∀ v ∈ l1 ++ k :: l3, v < k + 1 := by
          intro v hv
          apply hlk
          simp only [List.mem_append, List.mem_cons] at hv ⊢
          tauto
        exact le_trans (ihm _ i j _ hlen2 hlk2 hnew) (by omega)
      · have hlk1 : ∀ v ∈ l1, v < k := by
          intro v hv
          have h1 := hlk v (by simp [hv])
          have hne : v ≠ k := fun he => hknotin1 (he ▸ hv)
          omega
        have hlk2' : ∀ v ∈ l2, v < k := by
          intro v hv
          have h1 := hlk v (by simp [hv])
          have hne : v ≠ k := fun he => hkl2 (he ▸ hv)
          omega
        have hre1 : ReachableBelow D0 k i k := ⟨l1, w1, hlk1, hw1⟩
        have hre2 : ReachableBelow D0 k k j := ⟨l2, w2, hlk2', hw2⟩
        have hm1 : D i k ≤ w1 := ((hInv i k).1 hre1).2 l1 w1 hlk1 hw1
        have hm2 : D k j ≤ w2 := ((hInv k j).1 hre2).2 l2 w2 hlk2' hw2
        have hb1 : D i k ≤ 2 ^ 43 := FwInv_reach_bound Hsup hInv hre1
        have hb2 : D k j ≤ 2 ^ 43 := FwInv_reach_bound Hsup hInv hre2
        have hne1 : D i k ≠ U64_MAX := by
          intro h
          rw [h] at hb1
          norm_num [U64_MAX] at hb1
        have hne2 : D k j ≠ U64_MAX := by
          intro h
          rw [h] at hb2
          norm_num [U64_MAX] at hb2
        have hiN : i < VALVE_BUF_SIZE := (walkWeight_lt_bufsize Hsup l1 i k w1 hw1).1
        have hjN : j < VALVE_BUF_SIZE := (walkWeight_lt_bufsize Hsup l2 k j w2 hw2).2.1
        have hadd : add64 (D i k) (D k j) = D i k + D k j := add64_eq_of_lt (by omega)
        have hrelax : fwOuter D k i j ≤ D i k + D k j := by
          rw [happ i j]
          by_cases hC : i < VALVE_BUF_SIZE ∧ D i k ≠ U64_MAX ∧ j < VALVE_BUF_SIZE ∧
              D k j ≠ U64_MAX ∧ add64 (D i k) (D k j) < D i j
          · rw [if_pos hC, hadd]
          · rw [if_neg hC]
            have hnotlt : ¬ (add64 (D i k) (D k j) < D i j) :=
              fun hlt => hC ⟨hiN, hne1, hjN, hne2, hlt⟩
            rw [hadd] at hnotlt
            omega
        omega
    · have hlk' : ∀ v ∈ l, v < k := by
        intro v hv
        have h1 := hlk v hv
        have hne : v ≠ k := fun he => hkl (he ▸ hv)
        omega
      have hre : ReachableBelow D0 k i j := ⟨l, w, hlk', hw⟩
      exact le_trans (hE'leD i j) (((hInv i j).1 hre).2 l w hlk' hw)

theorem FwInv_step {D0 : Mat}
    (Hsup : ∀ i j, D0 i j ≠ U64_MAX →
      i < VALVE_BUF_SIZE ∧ j < VALVE_BUF_SIZE ∧ D0 i j ≤ 2 ^ 32)
    {k : Nat} {D : Mat} (hInv : FwInv D0 k D) :
    FwInv D0 (k + 1) (fwOuter D k) := by
  have hW : (2 : Nat) ^ 43 + 2 ^ 43 < W64 := by norm_num [W64]
  have hMAXbig : (2 : Nat) ^ 43 + 2 ^ 43 < U64_MAX := by norm_num [U64_MAX]
  have hrow : ∀ b, D k b = U64_MAX ∨ D k b ≤ 2 ^ 43 :=
    fun b => FwInv_entry_bound Hsup hInv k b
  have happ : ∀ a b, fwOuter D k a b =
      (if a < VALVE_BUF_SIZE ∧ D a k ≠ U64_MAX ∧ b < VALVE_BUF_SIZE ∧ D k b ≠ U64_MAX ∧
        add64 (D a k) (D k b) < D a b
      then add64 (D a k) (D k b) else D a b) :=
    fun a b => fwOuter_aux k D hrow VALVE_BUF_SIZE a b
  intro i j
  constructor
  · rintro ⟨l, w, hlk, hw⟩
    refine ⟨?_, fun l2 w2 hlk2 hw2 =>
      fwOuter_le Hsup k hInv l2.length l2 i j w2 (Nat.le_refl _) hlk2 hw2⟩
    rw [happ i j]
    by_cases hC : i < VALVE_BUF_SIZE ∧ D i k ≠ U64_MAX ∧ j < VALVE_BUF_SIZE ∧
        D k j ≠ U64_MAX ∧ add64 (D i k) (D k j) < D i j
    · rw [if_pos hC]
      obtain ⟨hiN, hne1, hjN, hne2, hlt⟩ := hC
      have hre1 := FwInv_not_max hInv hne1
      have hre2 := FwInv_not_max hInv hne2
      obtain ⟨⟨l1, hlk1, hw1⟩, _⟩ := (hInv i k).1 hre1
      obtain ⟨⟨l2, hlk2, hw2⟩, _⟩ := (hInv k j).1 hre2
      have hb1 : D i k ≤ 2 ^ 43 := FwInv_reach_bound Hsup hInv hre1
      have hb2 : D k j ≤ 2 ^ 43 := FwInv_reach_bound Hsup hInv hre2
      have hadd : add64 (D i k) (D k j) = D i k + D k j := add64_eq_of_lt (by omega)
      refine ⟨l1 ++ k :: l2, ?_, ?_⟩
      · intro v hv
        rcases List.mem_append.mp hv with h1 | h1
        · exact Nat.lt_succ_of_lt (hlk1 v h1)
        · rcases List.mem_cons.mp h1 with h2 | h2
          · omega
          · exact Nat.lt_succ_of_lt (hlk2 v h2)
      · rw [hadd]
        exact (walkWeight_append_iff D0 l1 l2 k i j _).mpr ⟨_, _, hw1, hw2, rfl⟩
    · rw [if_neg hC]
      by_cases hrk : ReachableBelow D0 k i j
      · obtain ⟨⟨l1, hlk1, hw1⟩, _⟩ := (hInv i j).1 hrk
        exact ⟨l1, fun v hv => Nat.lt_succ_of_lt (hlk1 v hv), hw1⟩
      · exfalso
        have hkl : k ∈ l := by
          by_contra hkl
          refine hrk ⟨l, w, ?_, hw⟩
          intro v hv
          have h1 := hlk v hv
          have hne : v ≠ k := fun he => hkl (he ▸ hv)
          omega
        obtain ⟨m1, m2, hem, hnm1⟩ := first_mem_split hkl
        obtain ⟨p1, p2, hep, hnp2⟩ := last_mem_split hkl
        obtain ⟨wm1, wm2, hwm1, _, _⟩ :=
          (walkWeight_append_iff D0 m1 m2 k i j w).mp (hem ▸ hw)
        obtain ⟨wp1, wp2, _, hwp2, _⟩ :=
          (walkWeight_append_iff D0 p1 p2 k i j w).mp (hep ▸ hw)
        have hlkm1 : ∀ v ∈ m1, v < k := by
          intro v hv
          have h1 := hlk v (by rw [hem]; simp [hv])
          have hne : v ≠ k := fun he => hnm1 (he ▸ hv)
          omega
        have hlkp2 : ∀ v ∈ p2, v < k := by
          intro v hv
          have h1 := hlk v (by rw [hep]; simp [hv])
          have hne : v ≠ k := fun he => hnp2 (he ▸ hv)
          omega
        have hre1 : ReachableBelow D0 k i k := ⟨m1, wm1, hlkm1, hwm1⟩
        have hre2 : ReachableBelow D0 k k j := ⟨p2, wp2, hlkp2, hwp2⟩
        have hb1 : D i k ≤ 2 ^ 43 := FwInv_reach_bound Hsup hInv hre1
        have hb2 : D k j ≤ 2 ^ 43 := FwInv_reach_bound Hsup hInv hre2
        have hne1 : D i k ≠ U64_MAX := by
          intro h
          rw [h] at hb1
          norm_num [U64_MAX] at hb1
        have hne2 : D k j ≠ U64_MAX := by
          intro h
          rw [h] at hb2
          norm_num [U64_MAX] at hb2
        have hMij : D i j = U64_MAX := (hInv i j).2 hrk
        have hiN : i < VALVE_BUF_SIZE := (walkWeight_lt_bufsize Hsup l i j w hw).1
        have hjN : j < VALVE_BUF_SIZE := (walkWeight_lt_bufsize Hsup l i j w hw).2.1
        have hadd : add64 (D i k) (D k j) = D i k + D k j := add64_eq_of_lt (by omega)
        exact hC ⟨hiN, hne1, hjN, hne2, by rw [hadd, hMij]; omega⟩
  · intro hnr
    have hnrk : ¬ ReachableBelow D0 k i j := fun h => hnr (ReachableBelow_mono h)
    have hMij : D i j = U64_MAX := (hInv i j).2 hnrk
    rw [happ i j]
    by_cases hC : i < VALVE_BUF_SIZE ∧ D i k ≠ U64_MAX ∧ j < VALVE_BUF_SIZE ∧
        D k j ≠ U64_MAX ∧ add64 (D i k) (D k j) < D i j
    · exfalso
      obtain ⟨hiN, hne1, hjN, hne2, hlt⟩ := hC
      obtain ⟨⟨l1, hlk1, hw1⟩, _⟩ := (hInv i k).1 (FwInv_not_max hInv hne1)
      obtain ⟨⟨l2, hlk2, hw2⟩, _⟩ := (hInv k j).1 (FwInv_not_max hInv hne2)
      refine hnr ⟨l1 ++ k :: l2, D i k + D k j, ?_, ?_⟩
      · intro v hv
        rcases List.mem_append.mp hv with h1 | h1
        · exact Nat.lt_succ_of_lt (hlk1 v h1)
        · rcases List.mem_cons.mp h1 with h2 | h2
          · omega
          · exact Nat.lt_succ_of_lt (hlk2 v h2)
      · exact (walkWeight_append_iff D0 l1 l2 k i j _).mpr ⟨_, _, hw1, hw2, rfl⟩
    · rw [if_neg hC]
      exact hMij

theorem floyd_warshall_inv {D0 : Mat}
    (Hsup : ∀ i j, D0 i j ≠ U64_MAX →
      i < VALVE_BUF_SIZE ∧ j < VALVE_BUF_SIZE ∧ D0 i j ≤ 2 ^ 32) :
    ∀ n, FwInv D0 n ((List.range n).foldl fwOuter D0) := by
  intro n
  induction n with
  | zero => exact FwInv_base D0
  | succ n ih =>
    rw [List.range_succ, List.foldl_append, List.foldl_cons, List.foldl_nil]
    exact FwInv_step Hsup ih

/-- C4: after the Floyd–Warshall refinement (floyd_warshall, the triple
    relaxation loop that skips unreachable intermediates), for every matrix of
    in-range finite entries the table holds the exact shortest walk weight for
    every pair joined by a walk, and every pair joined by no walk keeps the
    u64::MAX sentinel. -/
theorem C4_floyd_warshall_exact (D0 : Mat)
    (Hsup : ∀ i j, D0 i j ≠ U64_MAX →
      i < VALVE_BUF_SIZE ∧ j < VALVE_BUF_SIZE ∧ D0 i j ≤ 2 ^ 32) (i j : Nat) :
    (ReachableW D0 i j →
      (∃ l, walkWeight D0 i l j = some (floyd_warshall D0 i j)) ∧
      (∀ l w, walkWeight D0 i l j = some w → floyd_warshall D0 i j ≤ w)) ∧
    (¬ ReachableW D0 i j → floyd_warshall D0 i j = U64_MAX) := by
  have hinv : FwInv D0 VALVE_BUF_SIZE (floyd_warshall D0) :=
    floyd_warshall_inv Hsup VALVE_BUF_SIZE
  constructor
  · rintro ⟨l, w, hw⟩
    have hre : ReachableBelow D0 VALVE_BUF_SIZE i j :=
      ⟨l, w, (walkWeight_lt_bufsize Hsup l i j w hw).2.2, hw⟩
    obtain ⟨⟨l1, _, hw1⟩, hmin⟩ := (hinv i j).1 hre
    exact ⟨⟨l1, hw1⟩, fun l2 w2 hw2 =>
      hmin l2 w2 ((walkWeight_lt_bufsize Hsup l2 i j w2 hw2).2.2) hw2⟩
  · intro hnr
    apply (hinv i j).2
    rintro ⟨l, w, _, hw⟩
    exact hnr ⟨l, w, hw⟩

theorem C4_floyd_warshall_exact_witness :
    (∀ i j, (fun _ _ => U64_MAX : Mat) i j ≠ U64_MAX →
      i < VALVE_BUF_SIZE ∧ j < VALVE_BUF_SIZE ∧ (fun _ _ => U64_MAX : Mat) i j ≤ 2 ^ 32) ∧
    ¬ ReachableW (fun _ _ => U64_MAX) 0 1 ∧
    floyd_warshall (fun _ _ => U64_MAX) 0 1 = U64_MAX := by
  have hsup : ∀ i j, (fun _ _ => U64_MAX : Mat) i j ≠ U64_MAX →
      i < VALVE_BUF_SIZE ∧ j < VALVE_BUF_SIZE ∧ (fun _ _ => U64_MAX : Mat) i j ≤ 2 ^ 32 :=
    fun i j h => absurd rfl h
  have hnr : ¬ ReachableW (fun _ _ => U64_MAX) 0 1 := by
    rintro ⟨l, w, hw⟩
    cases l with
    | nil =>
      rw [walkWeight_nil, if_pos rfl] at hw
      exact absurd hw (by simp)
    | cons v l =>
      rw [walkWeight_cons, if_pos rfl] at hw
      exact absurd hw (by simp)
  exact ⟨hsup, hnr, (C4_floyd_warshall_exact (fun _ _ => U64_MAX) hsup 0 1).2 hnr⟩

end Day16
